import Mathlib

/-!
# Shallow embedding of `hashtable.c` (eriknyquist/hashtable)

This file embeds the core of `hashtable.c` / `hashtable_api.h` in Lean and
proves properties of the embedded operations.

Modelling conventions:

* Machine bytes are `Nat` values `< 256`; `uint32_t` arithmetic is done on
  `Nat` with explicit `% 2^32`; `size_t` counters are `Nat` (the C code keeps
  `bytes_used ≤ total_bytes` and only decrements counters it previously
  incremented, so `Nat` arithmetic agrees with the machine arithmetic on the
  states the operations are run on).
* The intrusive singly-linked chains (`_keyval_pair_list_t` with
  `head`/`tail`/`next` pointer surgery) are modelled as Lean lists of records
  in head-to-tail order.  Unlinking a node found together with its `prev`
  pointer is removal of the first matching element; appending at `tail` is
  list append; a cleared `next` field has no separate representation.
* A stored record (`_keyval_pair_t`) is modelled by its header fields
  `key_size`/`value_size` and the byte contents of its `data[]` region
  (key bytes, then value bytes, then any residual bytes kept by a reused
  free-list slot).  `memcpy` into the region overwrites a slice in place.
  Uninitialized bytes of a freshly carved record are modelled as `0`;
  no theorem depends on their values.
* The table's configured hash function (`table->config.hash`) is set at
  creation and never mutated, so it is passed to the operations as an
  explicit parameter instead of being stored in the state.
* The process-wide diagnostic buffer `_error_msg` (written by the `ERROR`
  macro) is modelled as a `String` carried next to the table in `Sys`.
* Plain `char` is signed on the reference platform (x86-64), so the
  conversion `(uint32_t) data[i]` in `_fnv1a_hash` sign-extends bytes
  `≥ 0x80`; `char_to_uint32` models exactly that conversion.
* `NULL` data pointers passed by the caller are modelled with `Option`;
  a `NULL` table handle has no counterpart in the model (the embedded
  operations always receive a table value), which only removes one of the
  paths that produce the `-1` status.
-/

set_option autoImplicit false

namespace Hashtable

/-- A machine byte, as stored in key/value data regions. -/
abbrev Byte := Nat

/-- A hash function, as in `hashtable_hashfunc_t`: key bytes to a `uint32_t`
value (modelled as `Nat`; the default hash below stays below `2^32`). -/
abbrev HashFn := List Byte → Nat

/-- `sizeof(_keyval_pair_t)` on the reference LP64 platform with the default
`HASHTABLE_SIZE_T_SYS` configuration and no packing: one pointer (`next`) plus
two `size_t` fields (`key_size`, `value_size`) = 24 bytes. -/
def sizeof_keyval_pair : Nat := 24

/-- `sizeof(_keyval_pair_list_t)`: two pointers (`head`, `tail`) = 16 bytes. -/
def sizeof_keyval_pair_list : Nat := 16

/-- `sizeof(_keyval_pair_list_table_t)`: a `uint32_t` padded to the 8-byte
alignment of the flexible `_keyval_pair_list_t table[]` member. -/
def sizeof_keyval_pair_list_table : Nat := 8

/-- A single stored key/value pair (`_keyval_pair_t`).  `data` holds the byte
contents of the flexible `data[]` region: key bytes, value bytes, and any
residual capacity bytes of a reused slot.  The intrusive `next` pointer is
represented by the position of the record in its containing list. -/
structure _keyval_pair_t where
  key_size : Nat
  value_size : Nat
  data : List Byte
  deriving DecidableEq, Repr

/-- The key bytes of a stored record: the first `key_size` bytes of `data`. -/
def keyBytes (p : _keyval_pair_t) : List Byte :=
  p.data.take p.key_size

/-- The whole observable state of one hashtable instance: the fields of
`hashtable_t` together with the contents of its `table->table_data` buffer
(`_keyval_pair_table_data_t`, the `_keyval_pair_list_t table[]` array and the
`_keyval_pair_data_block_t`).  `cursor_item` is the suffix of the current
bucket's chain starting at the record the C cursor pointer designates; the
empty list plays the role of a `NULL` cursor pointer.  `cursor_limit` models
the `uint8_t` flag with `false = 0`, `true = 1`. -/
structure Table where
  array_count : Nat
  entry_count : Nat
  array_slots_used : Nat
  buckets : List (List _keyval_pair_t)
  freelist : List _keyval_pair_t
  total_bytes : Nat
  bytes_used : Nat
  cursor_array_index : Nat
  cursor_items_traversed : Nat
  cursor_item : List _keyval_pair_t
  cursor_limit : Bool
  deriving DecidableEq, Repr

/-- A table instance together with the process-wide `_error_msg` buffer. -/
structure Sys where
  table : Table
  error_msg : String
  deriving DecidableEq, Repr

/-- The conversion `(uint32_t) data[i]` where `data` is `const char *`:
on the reference platform plain `char` is signed, so a stored byte `b ≥ 0x80`
is read as the negative value `b - 256` and sign-extended modulo `2^32`. -/
def char_to_uint32 (b : Byte) : Nat :=
  if b < 128 then b else 4294967040 + b

/-- The loop of `_fnv1a_hash`: `hash ^= (uint32_t) data[i]; hash *= prime;`
with `uint32_t` arithmetic, one iteration per key byte in order. -/
def _fnv1a_hash_go : List Byte → Nat → Nat
  | [], hash => hash
  | b :: rest, hash =>
    _fnv1a_hash_go rest (((hash ^^^ char_to_uint32 b) * 0x01000193) % 4294967296)

/-- `_fnv1a_hash` (hashtable.c lines 45-59): the default hash function,
starting from the offset basis `0x811c9dc5`. -/
def _fnv1a_hash (data : List Byte) : Nat :=
  _fnv1a_hash_go data 0x811c9dc5

/-- 32-bit FNV-1a as claim C7 words it: starting from offset basis
`0x811c9dc5`, for each key byte in order XOR the byte into the hash and then
multiply by the prime `0x01000193`, all modulo `2^32`.  This follows the
claim's words (pure byte XOR, no `char` conversion) and is compared against
`_fnv1a_hash`, which is translated from the source. -/
def fnv1a_spec (data : List Byte) : Nat :=
  data.foldl (fun h b => ((h ^^^ b) * 0x01000193) % 4294967296) 0x811c9dc5

/-- `hashtable_config_t`: hash function plus table array slot count. -/
structure hashtable_config_t where
  hash : HashFn
  array_count : Nat

/-- `HASHTABLE_MIN_ARRAY_COUNT`. -/
def HASHTABLE_MIN_ARRAY_COUNT : Nat := 10

/-- `IDEAL_BUFFER_TABLE_PERCENT`. -/
def IDEAL_BUFFER_TABLE_PERCENT : Nat := 12

/-- The `ARRAY_SIZE_BYTES` macro. -/
def ARRAY_SIZE_BYTES (array_count : Nat) : Nat :=
  array_count * sizeof_keyval_pair_list + sizeof_keyval_pair_list_table

/-- `hashtable_default_config` (hashtable.c lines 756-786): supplies
`_fnv1a_hash` and an array count sized from the buffer. -/
def hashtable_default_config (buffer_size : Nat) : hashtable_config_t :=
  let buf_min_size := buffer_size * IDEAL_BUFFER_TABLE_PERCENT / 100
  let array_min_size := ARRAY_SIZE_BYTES HASHTABLE_MIN_ARRAY_COUNT
  if buf_min_size > array_min_size then
    { hash := _fnv1a_hash
      array_count := (buf_min_size - sizeof_keyval_pair_list_table) / sizeof_keyval_pair_list + 1 }
  else
    { hash := _fnv1a_hash, array_count := HASHTABLE_MIN_ARRAY_COUNT }

/-- `_get_table_list_by_key` (hashtable.c lines 72-80), returning the bucket
index `hash(key) % array_count` instead of a pointer to the list there.
The hash function reads `key_size` bytes at the key pointer. -/
def _get_table_index_by_key (hash : HashFn) (t : Table) (key : List Byte)
    (key_size : Nat) : Nat :=
  hash (key.take key_size) % t.array_count

/-- The match test of `_search_list_by_key`: `curr->key_size == key_size`
followed by `memcmp(key, curr->data, key_size) == 0`. -/
def keyMatches (key : List Byte) (key_size : Nat) (p : _keyval_pair_t) : Bool :=
  p.key_size == key_size && p.data.take key_size == key.take key_size

/-- `_search_list_by_key` (hashtable.c lines 254-281): walk the chain and
return the first record with matching key data.  The `previous` out-pointer
of the C function identifies the match's position in the chain, which the
list representation keeps implicitly. -/
def _search_list_by_key (key : List Byte) (key_size : Nat) :
    List _keyval_pair_t → Option _keyval_pair_t
  | [] => none
  | p :: rest =>
    if keyMatches key key_size p then some p
    else _search_list_by_key key key_size rest

/-- Unlinking, via the `head`/`tail`/`prev` pointer surgery of
`_remove_from_table` and `_search_free_list`, of the first matching node of a
chain: removal of the first element satisfying the match. -/
def removeFirstMatch (key : List Byte) (key_size : Nat) :
    List _keyval_pair_t → List _keyval_pair_t
  | [] => []
  | p :: rest =>
    if keyMatches key key_size p then rest
    else p :: removeFirstMatch key key_size rest

/-- In-place mutation, through the pointer returned by
`_search_list_by_key`, of the first matching record of a chain. -/
def updateFirstMatch (key : List Byte) (key_size : Nat)
    (f : _keyval_pair_t → _keyval_pair_t) :
    List _keyval_pair_t → List _keyval_pair_t
  | [] => []
  | p :: rest =>
    if keyMatches key key_size p then f p :: rest
    else p :: updateFirstMatch key key_size f rest

/-- The free-list fitness test of `_search_free_list`:
`sizeof(_keyval_pair_t) + curr->key_size + curr->value_size >= size_required`. -/
def fitsRequired (size_required : Nat) (p : _keyval_pair_t) : Bool :=
  size_required ≤ sizeof_keyval_pair + p.key_size + p.value_size

/-- The walk of `_search_free_list` (hashtable.c lines 93-131): scan the free
list head to tail; at the first record whose footprint satisfies the size
requirement, unlink it (adjusting `head`, `tail` and `prev->next`) and return
it together with the remaining free list; otherwise return `none`. -/
def _search_free_list_go (size_required : Nat) :
    List _keyval_pair_t → Option (_keyval_pair_t × List _keyval_pair_t)
  | [] => none
  | curr :: rest =>
    if fitsRequired size_required curr then
      some (curr, rest)
    else
      match _search_free_list_go size_required rest with
      | some (item, rest') => some (item, curr :: rest')
      | none => none

/-- `_search_free_list` as an operation on the table state: on a hit the
returned record is removed from `freelist` (its `next` cleared); on a miss
the state is unchanged. -/
def _search_free_list (t : Table) (size_required : Nat) :
    Option _keyval_pair_t × Table :=
  match _search_free_list_go size_required t.freelist with
  | some (item, fl') => (some item, { t with freelist := fl' })
  | none => (none, t)

/-- `memcpy(region + off, src, n)` inside a byte region: overwrite `n` bytes
starting at offset `off` with the first `n` bytes at `src`. -/
def memcpy_at (region : List Byte) (off : Nat) (src : List Byte) (n : Nat) :
    List Byte :=
  region.take off ++ src.take n ++ region.drop (off + n)

/-- The population step of `_store_keyval_pair` (hashtable.c lines 177-186):
`ret->next = NULL; ret->key_size = key_size; ret->value_size = value_size;`
copy the key bytes, then copy the value bytes unless `value_size` is zero or
the value pointer is `NULL`. -/
def populatePair (ret : _keyval_pair_t) (key : List Byte) (key_size : Nat)
    (value : Option (List Byte)) (value_size : Nat) : _keyval_pair_t :=
  let d := memcpy_at ret.data 0 key key_size
  let d := if 0 < value_size ∧ value.isSome then
             memcpy_at d key_size (value.getD []) value_size
           else d
  { key_size := key_size, value_size := value_size, data := d }

/-- `_store_keyval_pair` (hashtable.c lines 150-189): prefer a suitable
free-list record; otherwise carve `size_required` bytes at the bump pointer,
advancing `bytes_used`, or fail when `size_required` exceeds the remaining
arena bytes.  A freshly carved record has a `data` region of exactly
`key_size + value_size` uninitialized bytes (modelled as `0`). -/
def _store_keyval_pair (t : Table) (key : List Byte) (key_size : Nat)
    (value : Option (List Byte)) (value_size : Nat) :
    Option _keyval_pair_t × Table :=
  let size_required := sizeof_keyval_pair + key_size + value_size
  match _search_free_list t size_required with
  | (some ret, t') => (some (populatePair ret key key_size value value_size), t')
  | (none, t') =>
    let size_remaining := t'.total_bytes - t'.bytes_used
    if size_required > size_remaining then
      (none, t')
    else
      (some (populatePair
               { key_size := 0, value_size := 0
                 data := List.replicate (key_size + value_size) 0 }
               key key_size value value_size),
       { t' with bytes_used := t'.bytes_used + size_required })

/-- `_remove_from_table` (hashtable.c lines 294-338): unlink the record that
`_search_list_by_key` found (the chain's first match) from the bucket chain at
`idx`, decrement `array_slots_used` if the chain became empty, append the
record (`item`, with `next` cleared) to the free-list tail, and decrement
`entry_count`.  Always returns status `0`. -/
def _remove_from_table (t : Table) (idx : Nat) (key : List Byte)
    (key_size : Nat) (item : _keyval_pair_t) : Int × Table :=
  let list' := removeFirstMatch key key_size (t.buckets.getD idx [])
  let t := { t with buckets := t.buckets.set idx list' }
  let t := if list'.isEmpty then
             { t with array_slots_used := t.array_slots_used - 1 }
           else t
  let t := { t with freelist := t.freelist ++ [item] }
  (0, { t with entry_count := t.entry_count - 1 })

/-- The linking step of `_insert_keyval_pair` (hashtable.c lines 407-422):
append the stored pair to the bucket chain at `idx` (becoming head and tail
of an empty chain, with `array_slots_used` incremented) and increment
`entry_count`. -/
def linkPair (t : Table) (idx : Nat) (pair : _keyval_pair_t) : Table :=
  let list := t.buckets.getD idx []
  let t := if list.isEmpty then
             { t with buckets := t.buckets.set idx [pair]
                      array_slots_used := t.array_slots_used + 1 }
           else
             { t with buckets := t.buckets.set idx (list ++ [pair]) }
  { t with entry_count := t.entry_count + 1 }

/-- The tail of `_insert_keyval_pair` (hashtable.c lines 400-424): allocate
storage for the new pair, then link it; status `1` when storage could not be
found. -/
def _insert_store_and_link (t : Table) (idx : Nat) (key : List Byte)
    (key_size : Nat) (value : Option (List Byte)) (value_size : Nat) :
    Int × Table :=
  match _store_keyval_pair t key key_size value value_size with
  | (none, t') => (1, t')
  | (some pair, t') => (0, linkPair t' idx pair)

/-- `_insert_keyval_pair` (hashtable.c lines 368-425).  If the key already
exists and the incoming value fits in the stored slot, overwrite the value in
place (copy skipped when `value_size` is zero or the value pointer is `NULL`)
and set `value_size`.  If it exists but is too small, unlink it to the free
list first.  Then store and link a fresh pair. -/
def _insert_keyval_pair (hash : HashFn) (s : Sys) (key : List Byte)
    (key_size : Nat) (value : Option (List Byte)) (value_size : Nat) :
    Int × Sys :=
  let t := s.table
  let idx := _get_table_index_by_key hash t key key_size
  match _search_list_by_key key key_size (t.buckets.getD idx []) with
  | some pair =>
    if value_size ≤ pair.value_size then
      let upd := fun (p : _keyval_pair_t) =>
        { p with
          data := if 0 < value_size ∧ value.isSome then
                    memcpy_at p.data p.key_size (value.getD []) value_size
                  else p.data
          value_size := value_size }
      let list' := updateFirstMatch key key_size upd (t.buckets.getD idx [])
      (0, { s with table := { t with buckets := t.buckets.set idx list' } })
    else
      match _remove_from_table t idx key key_size pair with
      | (r, t') =>
        if r < 0 then
          (-1, { s with table := t', error_msg := "Item removal failed" })
        else
          match _insert_store_and_link t' idx key key_size value value_size with
          | (st, t'') => (st, { s with table := t'' })
  | none =>
    match _insert_store_and_link t idx key key_size value value_size with
    | (st, t'') => (st, { s with table := t'' })

/-- `hashtable_insert` (hashtable.c lines 485-503): parameter validation
(`NULL` key, zero key size), then `_insert_keyval_pair`. -/
def hashtable_insert (hash : HashFn) (s : Sys) (key : Option (List Byte))
    (key_size : Nat) (value : Option (List Byte)) (value_size : Nat) :
    Int × Sys :=
  match key with
  | none => (-1, { s with error_msg := "NULL pointer passed to function" })
  | some k =>
    if key_size = 0 then
      (-1, { s with error_msg := "Invalid size value passed to function" })
    else
      _insert_keyval_pair hash s k key_size value value_size

/-- `hashtable_remove` (hashtable.c lines 509-536): parameter validation,
then search the key's chain; status `1` when absent, else unlink. -/
def hashtable_remove (hash : HashFn) (s : Sys) (key : Option (List Byte))
    (key_size : Nat) : Int × Sys :=
  match key with
  | none => (-1, { s with error_msg := "NULL pointer passed to function" })
  | some k =>
    if key_size = 0 then
      (-1, { s with error_msg := "Invalid size value passed to function" })
    else
      let t := s.table
      let idx := _get_table_index_by_key hash t k key_size
      match _search_list_by_key k key_size (t.buckets.getD idx []) with
      | none => (1, s)
      | some pair =>
        match _remove_from_table t idx k key_size pair with
        | (r, t') => (r, { s with table := t' })

/-- `hashtable_retrieve` (hashtable.c lines 542-573).  Outputs are the bytes
the caller can read through the written out-parameters: the value pointer is
written only when a pair is found and its `value_size` is positive (the
caller then reads `value_size` bytes at `pair->data + pair->key_size`); the
size output is written whenever a pair is found.  `none` models an
out-parameter the call left untouched. -/
def hashtable_retrieve (hash : HashFn) (s : Sys) (key : Option (List Byte))
    (key_size : Nat) : Int × Option (List Byte) × Option Nat × Sys :=
  match key with
  | none => (-1, none, none, { s with error_msg := "NULL pointer passed to function" })
  | some k =>
    let t := s.table
    let idx := _get_table_index_by_key hash t k key_size
    match _search_list_by_key k key_size (t.buckets.getD idx []) with
    | none => (1, none, none, s)
    | some pair =>
      ((0 : Int),
       (if 0 < pair.value_size then
          some ((pair.data.drop pair.key_size).take pair.value_size)
        else none),
       some pair.value_size, s)

/-- `hashtable_has_key` (hashtable.c lines 579-599). -/
def hashtable_has_key (hash : HashFn) (s : Sys) (key : Option (List Byte))
    (key_size : Nat) : Int × Sys :=
  match key with
  | none => (-1, { s with error_msg := "NULL pointer passed to function" })
  | some k =>
    let t := s.table
    let idx := _get_table_index_by_key hash t k key_size
    match _search_list_by_key k key_size (t.buckets.getD idx []) with
    | none => (0, s)
    | some _ => (1, s)

/-- `hashtable_bytes_remaining` (hashtable.c lines 605-619): writes
`total_bytes - bytes_used` to the out-parameter. -/
def hashtable_bytes_remaining (s : Sys) : Int × Option Nat × Sys :=
  (0, some (s.table.total_bytes - s.table.bytes_used), s)

/-- The `while` loop of `hashtable_next_item` (hashtable.c lines 645-688),
with explicit fuel: the loop body either emits a record or increments
`cursor_array_index`, so `array_count - cursor_array_index` bounds the number
of iterations; `_next_item_loop` below supplies exactly that fuel, making the
zero-fuel case (`cursor_array_index ≥ array_count`) coincide with a failed
loop guard. -/
def _next_item_go : Nat → Table → Option _keyval_pair_t × Table
  | 0, t => (none, t)
  | fuel + 1, t =>
    if t.cursor_array_index < t.array_count ∧
       t.cursor_items_traversed < t.entry_count then
      let list := t.buckets.getD t.cursor_array_index []
      match (if t.cursor_item.isEmpty then list else t.cursor_item) with
      | item :: rest =>
        (some item,
         { t with
           cursor_item := rest
           cursor_array_index := if rest.isEmpty then t.cursor_array_index + 1
                                 else t.cursor_array_index
           cursor_items_traversed := t.cursor_items_traversed + 1 })
      | [] => _next_item_go fuel { t with cursor_array_index := t.cursor_array_index + 1 }
    else
      (none, t)

/-- The loop of `hashtable_next_item` with its fuel instantiated. -/
def _next_item_loop (t : Table) : Option _keyval_pair_t × Table :=
  _next_item_go (t.array_count - t.cursor_array_index) t

/-- `hashtable_next_item` (hashtable.c lines 625-693): status `1` immediately
when the sticky `cursor_limit` flag is set; otherwise run the loop, emitting
the next record (status `0`), or set the flag, write the diagnostic
`"Cursor limit reached"` and return status `1`. -/
def hashtable_next_item (s : Sys) : Int × Option _keyval_pair_t × Sys :=
  if s.table.cursor_limit then
    (1, none, s)
  else
    match _next_item_loop s.table with
    | (some item, t') => (0, some item, { s with table := t' })
    | (none, t') =>
      (1, none,
       { s with table := { t' with cursor_limit := true }
                error_msg := "Cursor limit reached" })

/-- `hashtable_reset_cursor` (hashtable.c lines 699-716): index `0`,
no items traversed, cursor at `table[0].head`, flag cleared. -/
def hashtable_reset_cursor (s : Sys) : Int × Sys :=
  (0, { s with table :=
          { s.table with
            cursor_array_index := 0
            cursor_items_traversed := 0
            cursor_item := s.table.buckets.getD 0 []
            cursor_limit := false } })

/-- The table state produced by `hashtable_create`/`_setup_new_table`
(hashtable.c lines 202-237, 431-479) for a table with `array_count` slots and
`data_bytes = buffer_size - HASHTABLE_MIN_BUFFER_SIZE(array_count)` arena
bytes: zeroed chain array, empty free list, zeroed counters and cursor. -/
def freshTable (array_count : Nat) (data_bytes : Nat) : Table :=
  { array_count := array_count
    entry_count := 0
    array_slots_used := 0
    buckets := List.replicate array_count []
    freelist := []
    total_bytes := data_bytes
    bytes_used := 0
    cursor_array_index := 0
    cursor_items_traversed := 0
    cursor_item := []
    cursor_limit := false }

/-- Well-formedness of a table state: the invariants that hold for every
table built through the public API (spec §3).  All conjuncts are decidable,
so `decide` can check `WF` on concrete states. -/
def WF (hash : HashFn) (t : Table) : Prop :=
  0 < t.array_count ∧
  t.buckets.length = t.array_count ∧
  t.entry_count = t.buckets.flatten.length ∧
  t.bytes_used ≤ t.total_bytes ∧
  (∀ p ∈ t.buckets.flatten, p.key_size + p.value_size ≤ p.data.length) ∧
  (∀ p ∈ t.freelist, p.key_size + p.value_size ≤ p.data.length) ∧
  (∀ c ∈ t.buckets, (c.map (fun p => (p.key_size, keyBytes p))).Nodup) ∧
  (∀ i < t.buckets.length, ∀ p ∈ t.buckets.getD i [],
     hash (keyBytes p) % t.array_count = i)

instance (hash : HashFn) (t : Table) : Decidable (WF hash t) := by
  unfold WF
  exact inferInstance

/-- Repeated `hashtable_next_item` calls: collect the emitted records until
the first call that returns no record (which is exactly a status `≠ 0`
return), or until the fuel runs out.  The `Bool` component records whether
such an "end" return was reached. -/
def collect_next : Nat → Sys → List _keyval_pair_t × Bool × Sys
  | 0, s => ([], false, s)
  | fuel + 1, s =>
    match hashtable_next_item s with
    | (_, some item, s') =>
      match collect_next fuel s' with
      | (items, e, s'') => (item :: items, e, s'')
    | (_, none, s') => ([], true, s')

/-- The records an in-progress iteration has yet to visit: the rest of the
current bucket's chain from the cursor pointer on, then all chains of the
buckets after the current one.  An empty `cursor_item` (`NULL` pointer) means
the loop still has to move to the chain at `cursor_array_index`. -/
def cursorRemaining (t : Table) : List _keyval_pair_t :=
  t.cursor_item ++
    (t.buckets.drop
       (t.cursor_array_index + (if t.cursor_item.isEmpty then 0 else 1))).flatten

/-- The states reachable between `hashtable_next_item` calls of an
uninterrupted iteration over a well-formed table. -/
def CursorInv (t : Table) : Prop :=
  t.buckets.length = t.array_count ∧
  t.entry_count = t.cursor_items_traversed + (cursorRemaining t).length ∧
  t.cursor_limit = false ∧
  (t.cursor_item ≠ [] → t.cursor_array_index < t.array_count)

/-- The arena footprint an insert of the pair requests from the allocator:
`sizeof(_keyval_pair_t) + key_size + value_size`. -/
def reqOf (p : List Byte × List Byte) : Nat :=
  sizeof_keyval_pair + p.1.length + p.2.length

/-- The stored record a successful fresh insert of the pair produces:
header sizes from the key/value lengths, data region holding exactly the key
bytes followed by the value bytes. -/
def recordOf (p : List Byte × List Byte) : _keyval_pair_t :=
  { key_size := p.1.length, value_size := p.2.length, data := p.1 ++ p.2 }

/-- Insert a list of key/value pairs in order via `hashtable_insert`. -/
def insertAll (hash : HashFn) : List (List Byte × List Byte) → Sys → Sys
  | [], s => s
  | p :: rest, s =>
    insertAll hash rest
      (hashtable_insert hash s (some p.1) p.1.length (some p.2) p.2.length).2

/-- Remove a list of keys in order via `hashtable_remove`. -/
def removeAll (hash : HashFn) : List (List Byte) → Sys → Sys
  | [], s => s
  | k :: rest, s =>
    removeAll hash rest (hashtable_remove hash s (some k) k.length).2

/-- The number of nonempty bucket chains (what `array_slots_used` counts). -/
def slotsOf (bs : List (List _keyval_pair_t)) : Nat :=
  bs.countP (fun c => !c.isEmpty)

/-- The canonical chain trace of a run of successful fresh inserts: each
pair's stored record (`recordOf`) is linked (`linkPair`) into its key's
bucket, in order.  Both a bump-allocating run on an empty free list and a
run reusing exact-fit free-list records produce this table, up to the
`bytes_used` and `freelist` fields those two allocation paths manage
differently. -/
def insCanon (hash : HashFn) : List (List Byte × List Byte) → Table → Table
  | [], t => t
  | p :: rest, t =>
    insCanon hash rest (linkPair t (hash p.1 % t.array_count) (recordOf p))

/-- A valid table holding one record (key `[97]`, one value byte) in a full
arena: `total_bytes = bytes_used = 26 = sizeof(_keyval_pair_t) + 1 + 1`.
Used to exhibit the non-atomic failing insert of claim C1. -/
def c1Table : Table :=
  { array_count := 1
    entry_count := 1
    array_slots_used := 1
    buckets := [[{ key_size := 1, value_size := 1, data := [97, 5] }]]
    freelist := []
    total_bytes := 26
    bytes_used := 26
    cursor_array_index := 0
    cursor_items_traversed := 0
    cursor_item := []
    cursor_limit := false }

/-- A valid table storing key `[65]` with a 5-byte value, whose free list
already holds a 13-byte-capacity record (footprint 37): an overwrite of
`[65]` with a 12-byte value (request 37) reuses that free-list record.
Used for claim C5. -/
def c5Table : Table :=
  { array_count := 1
    entry_count := 1
    array_slots_used := 1
    buckets := [[{ key_size := 1, value_size := 5, data := [65, 1, 2, 3, 4, 5] }]]
    freelist := [{ key_size := 1, value_size := 12, data := 66 :: List.replicate 12 0 }]
    total_bytes := 67
    bytes_used := 67
    cursor_array_index := 0
    cursor_items_traversed := 0
    cursor_item := []
    cursor_limit := false }

/-- Two pairs: key `[65]` with an empty value (request 25) and key `[66]`
with a 12-byte value (request 37).  Used for claim C6. -/
def c6S : List (List Byte × List Byte) :=
  [([65], []), ([66], List.replicate 12 0)]

/-- A fresh single-bucket table whose arena holds both `c6S` records
(25 + 37 = 62 bytes) plus 37 spare bytes. -/
def c6Start : Sys :=
  ⟨freshTable 1 99, ""⟩

/-- A fresh single-bucket table with a 100-byte arena, used as a small
concrete witness state. -/
def wSys : Sys :=
  ⟨freshTable 1 100, ""⟩

/-- `wSys` after inserting key `[65]` with the one-byte value `[9]`:
it stores one record of value size `1` and has an empty free list.
Used as a concrete witness state for claim C5. -/
def c5wSys : Sys :=
  (hashtable_insert _fnv1a_hash wSys (some [65]) 1 (some [9]) 1).2

/-- A valid two-bucket table holding three records, with keys `[0]` and
`[2]` (hashing to bucket 0 under `fun k => k.headD 0`) and `[1]` (bucket 1).
Used as a concrete iteration witness state for claim C4. -/
def c4Table : Table :=
  { array_count := 2
    entry_count := 3
    array_slots_used := 2
    buckets := [[{ key_size := 1, value_size := 1, data := [0, 10] },
                 { key_size := 1, value_size := 0, data := [2] }],
                [{ key_size := 1, value_size := 2, data := [1, 20, 21] }]]
    freelist := []
    total_bytes := 100
    bytes_used := 81
    cursor_array_index := 0
    cursor_items_traversed := 0
    cursor_item := []
    cursor_limit := false }

/-! ## Helper lemmas -/

theorem fnv1a_go_ascii (data : List Byte) :
    ∀ h, (∀ b ∈ data, b < 128) →
      _fnv1a_hash_go data h =
        data.foldl (fun h b => ((h ^^^ b) * 0x01000193) % 4294967296) h := by
  induction data with
  | nil => intro h _; rfl
  | cons b rest ih =>
    intro h hb
    have hch : char_to_uint32 b = b := by
      unfold char_to_uint32
      rw [if_pos (hb b (by simp))]
    simp only [_fnv1a_hash_go, List.foldl_cons, hch]
    exact ih _ (fun x hx => hb x (by simp [hx]))

theorem default_config_hash (buffer_size : Nat) :
    (hashtable_default_config buffer_size).hash = _fnv1a_hash := by
  unfold hashtable_default_config
  dsimp only
  split <;> rfl

theorem msg_of_store_link (s : Sys) (r : Int × Table) :
    (match r with | (st, t'') => (st, { s with table := t'' })).2.error_msg
      = s.error_msg := by
  cases r with
  | mk st t => rfl

theorem wrap_fst (s : Sys) (r : Int × Table) :
    (match r with | (st, t'') => (st, { s with table := t'' })).1 = r.1 := by
  cases r with
  | mk st t => rfl

theorem wrap_table (s : Sys) (r : Int × Table) :
    (match r with | (st, t'') => (st, { s with table := t'' })).2.table = r.2 := by
  cases r with
  | mk st t => rfl

theorem store_and_link_status (t : Table) (idx : Nat) (k : List Byte)
    (ks : Nat) (v : Option (List Byte)) (vs : Nat) :
    (_insert_store_and_link t idx k ks v vs).1 = 0 ∨
    (_insert_store_and_link t idx k ks v vs).1 = 1 := by
  simp only [_insert_store_and_link]
  rcases h : _store_keyval_pair t k ks v vs with ⟨o, t'⟩
  cases o <;> simp

theorem store_fail_table (t : Table) (k : List Byte) (ks : Nat)
    (v : Option (List Byte)) (vs : Nat) :
    (_store_keyval_pair t k ks v vs).1 = none →
    (_store_keyval_pair t k ks v vs).2 = t := by
  simp only [_store_keyval_pair, _search_free_list]
  split
  · simp
  · rename_i t' heq
    have ht : t' = t := by
      rcases h2 : _search_free_list_go (sizeof_keyval_pair + ks + vs) t.freelist
          with _ | ⟨i, f⟩ <;> rw [h2] at heq <;> simp only [] at heq
      · injection heq with h1 h2
        exact h2.symm
      · exact absurd heq (by simp)
    subst ht
    split
    · intro _; rfl
    · simp

theorem remove_from_table_eq (t : Table) (idx : Nat) (k : List Byte)
    (ks : Nat) (item : _keyval_pair_t) :
    _remove_from_table t idx k ks item
      = (0, (_remove_from_table t idx k ks item).2) :=
  rfl

theorem store_and_link_ne_zero (t : Table) (idx : Nat) (k : List Byte)
    (ks : Nat) (v : Option (List Byte)) (vs : Nat)
    (h : (_insert_store_and_link t idx k ks v vs).1 ≠ 0) :
    _insert_store_and_link t idx k ks v vs = (1, t) := by
  revert h
  simp only [_insert_store_and_link]
  rcases hs : _store_keyval_pair t k ks v vs with ⟨o, t'⟩
  cases o with
  | some pair => simp
  | none =>
    intro _
    have ht : t' = t := by
      have := store_fail_table t k ks v vs (by rw [hs])
      rw [hs] at this
      exact this
    rw [ht]

/-! ## Claim theorems -/

/-- C7 (counterexample): the default hash function is not FNV-1a as claimed
for every key byte value: at the single-byte key `0x80` the `char` read is
sign-extended before the XOR, so the computed hash differs from the FNV-1a
value of the claim. -/
theorem c7_fnv1a_counterexample :
    (hashtable_default_config 4096).hash [128] = 83079839 ∧
    fnv1a_spec [128] = 2232128415 ∧
    (hashtable_default_config 4096).hash [128] ≠ fnv1a_spec [128] := by
  decide

/-- C7 (amended): for every key whose bytes are all below `0x80` (so that the
signed-`char` conversion is the identity), the default hash function supplied
by `hashtable_default_config` computes 32-bit FNV-1a exactly as the claim
states; bytes `≥ 0x80` are sign-extended before the XOR instead. -/
theorem c7_fnv1a_amended (buffer_size : Nat) (data : List Byte)
    (hascii : ∀ b ∈ data, b < 128) :
    (hashtable_default_config buffer_size).hash data = fnv1a_spec data := by
  rw [default_config_hash, _fnv1a_hash, fnv1a_spec,
      fnv1a_go_ascii data _ hascii]

/-- C7 (witness): the amended theorem applied to the two-byte key
`[0x68, 0x69]`. -/
theorem c7_fnv1a_amended_witness :
    (∀ b ∈ [104, 105], b < 128) ∧
    (hashtable_default_config 4096).hash [104, 105] = fnv1a_spec [104, 105] :=
  ⟨by decide, c7_fnv1a_amended 4096 [104, 105] (by decide)⟩

/-- C9: `hashtable_retrieve`, `hashtable_has_key` and
`hashtable_bytes_remaining` are read-only: for every table, key and status
they return the table state (chains, free list, counters, arena bytes and
cursor) unchanged. -/
theorem c9_readonly (hash : HashFn) (s : Sys) (key : Option (List Byte))
    (key_size : Nat) :
    (hashtable_retrieve hash s key key_size).2.2.2.table = s.table ∧
    (hashtable_has_key hash s key key_size).2.table = s.table ∧
    (hashtable_bytes_remaining s).2.2.table = s.table := by
  refine ⟨?_, ?_, rfl⟩ <;>
  · cases key with
    | none => rfl
    | some k =>
      simp only [hashtable_retrieve, hashtable_has_key]
      cases _search_list_by_key k key_size
          (s.table.buckets.getD (_get_table_index_by_key hash s.table k key_size) []) <;>
        rfl

/-- C8 (counterexample): on a fresh table (diagnostic string empty), the
first cursor-exhausted return of `hashtable_next_item` writes the
process-wide diagnostic string `"Cursor limit reached"`, contradicting the
claim that the cursor-exhausted status leaves it unchanged. -/
theorem c8_diagnostic_counterexample :
    (hashtable_next_item wSys).1 = 1 ∧
    (hashtable_next_item wSys).2.2.error_msg = "Cursor limit reached" ∧
    (hashtable_next_item wSys).2.2.error_msg ≠ wSys.error_msg := by
  decide

/-- C8 (amended): `hashtable_remove` and `hashtable_retrieve` returning
not-found (status `1`) and `hashtable_insert` returning no-space (status `1`)
leave the diagnostic string unchanged; for `hashtable_next_item`, a
cursor-exhausted return with the sticky `cursor_limit` flag already set
leaves the whole state (diagnostic included) unchanged, but the call that
first discovers exhaustion and sets the flag writes `"Cursor limit
reached"`. -/
theorem c8_diagnostic_amended (hash : HashFn) (s : Sys)
    (key : Option (List Byte)) (key_size value_size : Nat)
    (value : Option (List Byte)) :
    ((hashtable_remove hash s key key_size).1 = 1 →
       (hashtable_remove hash s key key_size).2.error_msg = s.error_msg) ∧
    ((hashtable_retrieve hash s key key_size).1 = 1 →
       (hashtable_retrieve hash s key key_size).2.2.2.error_msg = s.error_msg) ∧
    ((hashtable_insert hash s key key_size value value_size).1 = 1 →
       (hashtable_insert hash s key key_size value value_size).2.error_msg
         = s.error_msg) ∧
    (s.table.cursor_limit = true → hashtable_next_item s = (1, none, s)) := by
  refine ⟨?_, ?_, ?_, ?_⟩
  · cases key with
    | none => simp [hashtable_remove]
    | some k =>
      simp only [hashtable_remove]
      split
      · simp
      · split
        · intro _; rfl
        · simp [_remove_from_table]
  · cases key with
    | none => simp [hashtable_retrieve]
    | some k =>
      simp only [hashtable_retrieve]
      split
      · intro _; rfl
      · simp
  · cases key with
    | none => simp [hashtable_insert]
    | some k =>
      simp only [hashtable_insert]
      split
      · simp
      · simp only [_insert_keyval_pair]
        split
        · split
          · simp
          · simp only [_remove_from_table]
            rw [if_neg (by decide)]
            intro _
            exact msg_of_store_link s _
        · intro _
          exact msg_of_store_link s _
  · intro h
    simp only [hashtable_next_item, h, if_pos]

/-- C8 (witness): the amended theorem applied to a not-found removal on a
fresh table. -/
theorem c8_diagnostic_amended_witness :
    (hashtable_remove _fnv1a_hash wSys (some [2]) 1).1 = 1 ∧
    (hashtable_remove _fnv1a_hash wSys (some [2]) 1).2.error_msg
      = wSys.error_msg :=
  ⟨by decide,
   (c8_diagnostic_amended _fnv1a_hash wSys (some [2]) 1 0 none).1 (by decide)⟩

/-- C1 (counterexample): on the valid table `c1Table` (one record, full
arena), inserting the stored key `[97]` with a larger two-byte value returns
the no-space status `1`, yet the table state has changed: the old record was
unlinked to the free list and `entry_count`, `array_slots_used` and the
bucket chain all changed.  This refutes the claim that every non-ok return
leaves the state unchanged. -/
theorem c1_atomicity_counterexample :
    WF _fnv1a_hash c1Table ∧
    (hashtable_insert _fnv1a_hash ⟨c1Table, ""⟩ (some [97]) 1 (some [1, 2]) 2).1 = 1 ∧
    (hashtable_insert _fnv1a_hash ⟨c1Table, ""⟩ (some [97]) 1 (some [1, 2]) 2).2.table
      ≠ c1Table := by
  decide

/-- C1 (amended): non-ok mutating calls leave the table state unchanged
except in one case.  In detail: a `hashtable_remove` that does not return ok
changes nothing; a `hashtable_insert` that returns the invalid status `-1`
changes nothing; and a `hashtable_insert` that does not return ok for a key
with no match in its bucket chain changes nothing.  (The excluded case is an
insert that finds the key with a larger incoming value and then runs out of
space: it has already moved the old record to the free list, as the
counterexample shows.) -/
theorem c1_atomicity_amended (hash : HashFn) (s : Sys)
    (key : Option (List Byte)) (key_size value_size : Nat)
    (value : Option (List Byte)) :
    ((hashtable_remove hash s key key_size).1 ≠ 0 →
       (hashtable_remove hash s key key_size).2.table = s.table) ∧
    ((hashtable_insert hash s key key_size value value_size).1 = -1 →
       (hashtable_insert hash s key key_size value value_size).2.table
         = s.table) ∧
    (∀ k, key = some k →
       _search_list_by_key k key_size
           (s.table.buckets.getD (_get_table_index_by_key hash s.table k key_size) [])
         = none →
       (hashtable_insert hash s key key_size value value_size).1 ≠ 0 →
       (hashtable_insert hash s key key_size value value_size).2.table
         = s.table) := by
  refine ⟨?_, ?_, ?_⟩
  · cases key with
    | none => intro _; rfl
    | some k =>
      simp only [hashtable_remove]
      split
      · intro _; rfl
      · split
        · intro _; rfl
        · simp only [_remove_from_table]
          intro h; exact absurd rfl h
  · cases key with
    | none => intro _; rfl
    | some k =>
      simp only [hashtable_insert]
      split
      · intro _; rfl
      · simp only [_insert_keyval_pair]
        rcases hsl : _search_list_by_key k key_size
            (s.table.buckets.getD (_get_table_index_by_key hash s.table k key_size) [])
          with _ | pair
        · rw [wrap_fst]
          intro hst
          rcases store_and_link_status s.table
              (_get_table_index_by_key hash s.table k key_size)
              k key_size value value_size with h | h <;> omega
        · simp only []
          split
          · simp
          · rw [remove_from_table_eq]
            simp only []
            rw [if_neg (show ¬((0 : Int) < 0) by decide)]
            rw [wrap_fst]
            intro hst
            rcases store_and_link_status
                (_remove_from_table s.table
                  (_get_table_index_by_key hash s.table k key_size) k key_size pair).2
                (_get_table_index_by_key hash s.table k key_size)
                k key_size value value_size with h | h <;> omega
  · intro k hk hnone
    subst hk
    simp only [hashtable_insert]
    split
    · intro _; rfl
    · simp only [_insert_keyval_pair, hnone]
      rw [wrap_fst s]
      intro hst
      rw [store_and_link_ne_zero s.table
            (_get_table_index_by_key hash s.table k key_size)
            k key_size value value_size hst]

/-- C1 (witness): the amended theorem applied to a not-found removal on a
fresh table. -/
theorem c1_atomicity_amended_witness :
    (hashtable_remove _fnv1a_hash wSys (some [3]) 1).1 ≠ 0 ∧
    (hashtable_remove _fnv1a_hash wSys (some [3]) 1).2.table = wSys.table :=
  ⟨by decide,
   (c1_atomicity_amended _fnv1a_hash wSys (some [3]) 1 0 none).1 (by decide)⟩

theorem getD_set_self (l : List (List _keyval_pair_t)) (i : Nat) (x : List _keyval_pair_t)
    (h : i < l.length) : (l.set i x).getD i [] = x := by
  induction l generalizing i with
  | nil => exact absurd h (by simp)
  | cons a l ih =>
    cases i with
    | zero => rfl
    | succ j => exact ih j (by simpa using h)

theorem getD_set_ne (l : List (List _keyval_pair_t)) (i j : Nat) (x : List _keyval_pair_t)
    (h : i ≠ j) : (l.set i x).getD j [] = l.getD j [] := by
  induction l generalizing i j with
  | nil => rfl
  | cons a l ih =>
    cases i with
    | zero => cases j with
      | zero => exact absurd rfl h
      | succ j2 => rfl
    | succ i2 => cases j with
      | zero => rfl
      | succ j2 => exact ih i2 j2 (by omega)

theorem search_free_list_go_eq (req : Nat) :
    ∀ fl : List _keyval_pair_t,
      _search_free_list_go req fl =
        match fl.find? (fitsRequired req) with
        | some r => some (r, fl.eraseP (fitsRequired req))
        | none => none := by
  intro fl
  induction fl with
  | nil => rfl
  | cons p rest ih =>
    cases hp : fitsRequired req p with
    | true =>
      simp [_search_free_list_go, hp, List.find?_cons, List.eraseP_cons]
    | false =>
      simp only [_search_free_list_go, hp, List.eraseP_cons, List.find?_cons,
        Bool.false_eq_true, if_false, cond_false, ih]
      cases hf : rest.find? (fitsRequired req) <;> simp [hf]

theorem search_free_list_eq (t : Table) (req : Nat) :
    _search_free_list t req =
      (t.freelist.find? (fitsRequired req),
       { t with freelist := t.freelist.eraseP (fitsRequired req) }) := by
  simp only [_search_free_list, search_free_list_go_eq]
  cases hf : t.freelist.find? (fitsRequired req) with
  | some r => rfl
  | none =>
    have he : t.freelist.eraseP (fitsRequired req) = t.freelist :=
      List.eraseP_of_forall_not (by
        intro a ha
        exact List.find?_eq_none.mp hf a ha)
    rw [he]

theorem store_keyval_eq (t : Table) (key : List Byte) (ks : Nat)
    (v : Option (List Byte)) (vs : Nat) :
    _store_keyval_pair t key ks v vs =
      (match t.freelist.find? (fitsRequired (sizeof_keyval_pair + ks + vs)) with
       | some r =>
         (some (populatePair r key ks v vs),
          { t with freelist :=
              t.freelist.eraseP (fitsRequired (sizeof_keyval_pair + ks + vs)) })
       | none =>
         if t.total_bytes - t.bytes_used < sizeof_keyval_pair + ks + vs then
           (none, t)
         else
           (some (populatePair
                    { key_size := 0, value_size := 0
                      data := List.replicate (ks + vs) 0 } key ks v vs),
            { t with bytes_used :=
                t.bytes_used + (sizeof_keyval_pair + ks + vs) })) := by
  simp only [_store_keyval_pair, search_free_list_eq]
  cases hf : t.freelist.find? (fitsRequired (sizeof_keyval_pair + ks + vs)) with
  | some r => rfl
  | none =>
    have he : t.freelist.eraseP (fitsRequired (sizeof_keyval_pair + ks + vs))
        = t.freelist :=
      List.eraseP_of_forall_not (by
        intro a ha
        exact List.find?_eq_none.mp hf a ha)
    rw [he]

/-- C3: the allocation discipline of `_store_keyval_pair`.  The free-list
search takes exactly the first record whose footprint
(`sizeof(header) + stored key_size + stored value_size`, the `fitsRequired`
test) is at least the required size, unlinking it (`List.eraseP`); only when
no free-list record qualifies is the required size compared against
`total_bytes - bytes_used`, and on success the record is carved at the bump
pointer with `bytes_used` advanced by exactly the required size; otherwise
the allocator reports no space (`none`) with the state unchanged. -/
theorem c3_allocator (t : Table) (key : List Byte) (ks : Nat)
    (v : Option (List Byte)) (vs : Nat) :
    _search_free_list t (sizeof_keyval_pair + ks + vs) =
      (t.freelist.find? (fitsRequired (sizeof_keyval_pair + ks + vs)),
       { t with freelist :=
           t.freelist.eraseP (fitsRequired (sizeof_keyval_pair + ks + vs)) }) ∧
    _store_keyval_pair t key ks v vs =
      (match t.freelist.find? (fitsRequired (sizeof_keyval_pair + ks + vs)) with
       | some r =>
         (some (populatePair r key ks v vs),
          { t with freelist :=
              t.freelist.eraseP (fitsRequired (sizeof_keyval_pair + ks + vs)) })
       | none =>
         if t.total_bytes - t.bytes_used < sizeof_keyval_pair + ks + vs then
           (none, t)
         else
           (some (populatePair
                    { key_size := 0, value_size := 0
                      data := List.replicate (ks + vs) 0 } key ks v vs),
            { t with bytes_used :=
                t.bytes_used + (sizeof_keyval_pair + ks + vs) })) :=
  ⟨search_free_list_eq t (sizeof_keyval_pair + ks + vs),
   store_keyval_eq t key ks v vs⟩

theorem search_eq_find (k : List Byte) (ks : Nat) :
    ∀ c : List _keyval_pair_t,
      _search_list_by_key k ks c = c.find? (keyMatches k ks) := by
  intro c
  induction c with
  | nil => rfl
  | cons p rest ih =>
    simp only [_search_list_by_key, List.find?_cons]
    cases hp : keyMatches k ks p <;> simp [hp, ih]

theorem search_some_facts (k : List Byte) (ks : Nat) (c : List _keyval_pair_t)
    (p : _keyval_pair_t) (h : _search_list_by_key k ks c = some p) :
    keyMatches k ks p = true ∧ p ∈ c := by
  rw [search_eq_find] at h
  exact ⟨List.find?_some h, List.mem_of_find?_eq_some h⟩

theorem keyMatches_iff (k : List Byte) (ks : Nat) (p : _keyval_pair_t) :
    keyMatches k ks p = true ↔ p.key_size = ks ∧ p.data.take ks = k.take ks := by
  simp [keyMatches]

theorem search_append_of_none (k : List Byte) (ks : Nat)
    (c1 c2 : List _keyval_pair_t) (h : _search_list_by_key k ks c1 = none) :
    _search_list_by_key k ks (c1 ++ c2) = _search_list_by_key k ks c2 := by
  induction c1 with
  | nil => rfl
  | cons p rest ih =>
    by_cases hp : keyMatches k ks p = true
    · rw [_search_list_by_key, if_pos hp] at h
      exact absurd h (by simp)
    · rw [_search_list_by_key, if_neg hp] at h
      rw [List.cons_append, _search_list_by_key, if_neg hp]
      exact ih h

theorem removeFirstMatch_no_match (k : List Byte) (ks : Nat) :
    ∀ c : List _keyval_pair_t,
      (c.map fun p => (p.key_size, keyBytes p)).Nodup →
      _search_list_by_key k ks (removeFirstMatch k ks c) = none := by
  intro c
  induction c with
  | nil => intro _; rfl
  | cons p rest ih =>
    intro hnd
    simp only [List.map_cons, List.nodup_cons] at hnd
    obtain ⟨hpnot, hrest⟩ := hnd
    by_cases hp : keyMatches k ks p = true
    · rw [removeFirstMatch, if_pos hp, search_eq_find]
      apply List.find?_eq_none.mpr
      intro q hq hqm
      obtain ⟨hks, hkb⟩ := (keyMatches_iff k ks p).mp hp
      obtain ⟨hks2, hkb2⟩ := (keyMatches_iff k ks q).mp hqm
      apply hpnot
      refine List.mem_map.mpr ⟨q, hq, ?_⟩
      show (q.key_size, keyBytes q) = (p.key_size, keyBytes p)
      unfold keyBytes
      rw [hks, hks2, hkb, hkb2]
    · rw [removeFirstMatch, if_neg hp, _search_list_by_key, if_neg hp]
      exact ih hrest

theorem search_updateFirstMatch (k : List Byte) (ks : Nat)
    (f : _keyval_pair_t → _keyval_pair_t) :
    ∀ c p, _search_list_by_key k ks c = some p →
      keyMatches k ks (f p) = true →
      _search_list_by_key k ks (updateFirstMatch k ks f c) = some (f p) := by
  intro c
  induction c with
  | nil => intro p h; cases h
  | cons q rest ih =>
    intro p h hf
    by_cases hq : keyMatches k ks q = true
    · rw [_search_list_by_key, if_pos hq] at h
      cases h
      rw [updateFirstMatch, if_pos hq, _search_list_by_key, if_pos hf]
    · rw [_search_list_by_key, if_neg hq] at h
      rw [updateFirstMatch, if_neg hq, _search_list_by_key, if_neg hq]
      exact ih p h hf

theorem populate_sizes (ret : _keyval_pair_t) (k : List Byte) (ks : Nat)
    (v : Option (List Byte)) (vs : Nat) :
    (populatePair ret k ks v vs).key_size = ks ∧
    (populatePair ret k ks v vs).value_size = vs :=
  ⟨rfl, rfl⟩

theorem memcpy_key (d : List Byte) (k : List Byte) (ks : Nat) :
    memcpy_at d 0 k ks = k.take ks ++ d.drop ks := by
  simp [memcpy_at]

theorem populate_take_key (ret : _keyval_pair_t) (k : List Byte) (ks : Nat)
    (v : Option (List Byte)) (vs : Nat) (hk : ks ≤ k.length) :
    (populatePair ret k ks v vs).data.take ks = k.take ks := by
  have hlen : (k.take ks).length = ks := by
    simp [List.length_take, Nat.min_eq_left hk]
  simp only [populatePair, memcpy_key]
  split
  · rw [memcpy_at, List.take_left' hlen, List.append_assoc, List.take_left' hlen]
  · rw [List.take_left' hlen]

theorem populate_value_bytes (ret : _keyval_pair_t) (k : List Byte) (ks : Nat)
    (w : List Byte) (hk : ks ≤ k.length) :
    ((populatePair ret k ks (some w) w.length).data.drop ks).take w.length
      = w := by
  have hlen : (k.take ks).length = ks := by
    simp [List.length_take, Nat.min_eq_left hk]
  by_cases hw : 0 < w.length
  · simp only [populatePair, Option.getD_some]
    rw [if_pos (show 0 < w.length ∧ (some w : Option (List Byte)).isSome = true
          from ⟨hw, rfl⟩)]
    rw [memcpy_key, memcpy_at]
    rw [List.take_left' hlen, List.append_assoc, List.drop_left' hlen,
        List.take_left' (by simp), List.take_length]
  · have hw0 : w.length = 0 := by omega
    simp only [populatePair, memcpy_key]
    rw [if_neg (by simp [hw0])]
    rw [hw0, List.take_zero]
    exact (List.length_eq_zero.mp hw0).symm

theorem remove_from_table_shape (t : Table) (idx : Nat) (k : List Byte)
    (ks : Nat) (item : _keyval_pair_t) :
    (_remove_from_table t idx k ks item).2.buckets
        = t.buckets.set idx (removeFirstMatch k ks (t.buckets.getD idx [])) ∧
    (_remove_from_table t idx k ks item).2.array_count = t.array_count ∧
    (_remove_from_table t idx k ks item).2.freelist = t.freelist ++ [item] ∧
    (_remove_from_table t idx k ks item).2.total_bytes = t.total_bytes ∧
    (_remove_from_table t idx k ks item).2.bytes_used = t.bytes_used ∧
    (_remove_from_table t idx k ks item).2.entry_count = t.entry_count - 1 ∧
    (_remove_from_table t idx k ks item).2.array_slots_used
      = (if (removeFirstMatch k ks (t.buckets.getD idx [])).isEmpty then
           t.array_slots_used - 1 else t.array_slots_used) ∧
    (_remove_from_table t idx k ks item).2.cursor_array_index
      = t.cursor_array_index ∧
    (_remove_from_table t idx k ks item).2.cursor_items_traversed
      = t.cursor_items_traversed ∧
    (_remove_from_table t idx k ks item).2.cursor_item = t.cursor_item ∧
    (_remove_from_table t idx k ks item).2.cursor_limit = t.cursor_limit := by
  simp only [_remove_from_table]
  split <;> rename_i hemp <;> simp [hemp]

theorem linkPair_shape (t : Table) (idx : Nat) (p : _keyval_pair_t) :
    (linkPair t idx p).buckets
        = t.buckets.set idx ((t.buckets.getD idx []) ++ [p]) ∧
    (linkPair t idx p).array_count = t.array_count ∧
    (linkPair t idx p).freelist = t.freelist ∧
    (linkPair t idx p).total_bytes = t.total_bytes ∧
    (linkPair t idx p).bytes_used = t.bytes_used ∧
    (linkPair t idx p).entry_count = t.entry_count + 1 ∧
    (linkPair t idx p).array_slots_used
      = (if (t.buckets.getD idx []).isEmpty then t.array_slots_used + 1
         else t.array_slots_used) ∧
    (linkPair t idx p).cursor_array_index = t.cursor_array_index ∧
    (linkPair t idx p).cursor_items_traversed = t.cursor_items_traversed ∧
    (linkPair t idx p).cursor_item = t.cursor_item ∧
    (linkPair t idx p).cursor_limit = t.cursor_limit := by
  simp only [linkPair]
  split <;> rename_i hemp
  · have hnil : t.buckets.getD idx [] = [] := by
      simpa [List.isEmpty_iff] using hemp
    rw [hnil]
    simp [hemp]
  · simp [hemp]

theorem store_success_shape (t : Table) (k : List Byte) (ks : Nat)
    (v : Option (List Byte)) (vs : Nat) (p : _keyval_pair_t) (t₂ : Table)
    (h : _store_keyval_pair t k ks v vs = (some p, t₂)) :
    (∃ ret, p = populatePair ret k ks v vs) ∧
    t₂.buckets = t.buckets ∧ t₂.array_count = t.array_count ∧
    t₂.total_bytes = t.total_bytes ∧ t₂.entry_count = t.entry_count ∧
    t₂.array_slots_used = t.array_slots_used ∧
    t₂.cursor_array_index = t.cursor_array_index ∧
    t₂.cursor_items_traversed = t.cursor_items_traversed ∧
    t₂.cursor_item = t.cursor_item ∧
    t₂.cursor_limit = t.cursor_limit := by
  rw [store_keyval_eq] at h
  cases hf : t.freelist.find? (fitsRequired (sizeof_keyval_pair + ks + vs)) with
  | some r =>
    rw [hf] at h
    simp only [] at h
    injection h with h1 h2
    injection h1 with h1
    subst h2
    exact ⟨⟨r, h1.symm⟩, rfl, rfl, rfl, rfl, rfl, rfl, rfl, rfl, rfl⟩
  | none =>
    rw [hf] at h
    simp only [] at h
    split at h
    · exact absurd h (by simp)
    · injection h with h1 h2
      injection h1 with h1
      subst h2
      exact ⟨⟨_, h1.symm⟩, rfl, rfl, rfl, rfl, rfl, rfl, rfl, rfl, rfl⟩

theorem idx_lt (hash : HashFn) (t : Table) (k : List Byte) (ks : Nat)
    (hpos : 0 < t.array_count) :
    _get_table_index_by_key hash t k ks < t.array_count :=
  Nat.mod_lt _ hpos

theorem getD_mem (l : List (List _keyval_pair_t)) (i : Nat)
    (h : i < l.length) : l.getD i [] ∈ l := by
  have heq : l.getD i [] = l[i] := by
    rw [List.getD_eq_getElem?_getD, List.getElem?_eq_getElem h]
    rfl
  rw [heq]
  exact List.getElem_mem h

theorem memcpy_take_key (d : List Byte) (ks n : Nat) (w : List Byte)
    (hd : ks ≤ d.length) :
    (memcpy_at d ks w n).take ks = d.take ks := by
  have hlen : (d.take ks).length = ks := by
    simp [List.length_take, Nat.min_eq_left hd]
  rw [memcpy_at, List.append_assoc, List.take_left' hlen]

theorem memcpy_value_bytes (d : List Byte) (ks : Nat) (w : List Byte)
    (hd : ks ≤ d.length) :
    ((memcpy_at d ks w w.length).drop ks).take w.length = w := by
  have hlen : (d.take ks).length = ks := by
    simp [List.length_take, Nat.min_eq_left hd]
  rw [memcpy_at, List.append_assoc, List.drop_left' hlen,
      List.take_left' (by simp), List.take_length]

theorem retrieve_after_link (hash : HashFn) (m : String) (K V : List Byte)
    (t₂ : Table) (newp : _keyval_pair_t) (idx : Nat)
    (hidx_eq : hash (K.take K.length) % t₂.array_count = idx)
    (hlen2 : idx < t₂.buckets.length)
    (hnomatch : _search_list_by_key K K.length (t₂.buckets.getD idx []) = none)
    (hnewp : ∃ ret, newp = populatePair ret K K.length (some V) V.length) :
    hashtable_retrieve hash ⟨linkPair t₂ idx newp, m⟩ (some K) K.length
      = (0, (if 0 < V.length then some V else none), some V.length,
         ⟨linkPair t₂ idx newp, m⟩) := by
  obtain ⟨hbuck, harr, -⟩ := linkPair_shape t₂ idx newp
  obtain ⟨ret, hret⟩ := hnewp
  have hks : newp.key_size = K.length := by rw [hret]; rfl
  have hvs : newp.value_size = V.length := by rw [hret]; rfl
  have hkm : keyMatches K K.length newp = true := by
    apply (keyMatches_iff _ _ _).mpr
    refine ⟨hks, ?_⟩
    rw [hret]
    exact populate_take_key ret K K.length (some V) V.length le_rfl
  have hchain : (linkPair t₂ idx newp).buckets.getD idx []
      = (t₂.buckets.getD idx []) ++ [newp] := by
    rw [hbuck]; exact getD_set_self _ _ _ hlen2
  have hidx2 : _get_table_index_by_key hash (linkPair t₂ idx newp) K K.length
      = idx := by
    unfold _get_table_index_by_key
    rw [harr, hidx_eq]
  have hbytes : (newp.data.drop newp.key_size).take newp.value_size = V := by
    rw [hvs, hks, hret]
    exact populate_value_bytes ret K K.length V le_rfl
  simp only [hashtable_retrieve, hidx2, hchain]
  rw [search_append_of_none _ _ _ _ hnomatch]
  rw [_search_list_by_key, if_pos hkm]
  simp only []
  rw [hbytes, hvs]

theorem retrieve_after_update (hash : HashFn) (m : String) (K V : List Byte)
    (t : Table) (f : _keyval_pair_t → _keyval_pair_t) (pair : _keyval_pair_t)
    (idx : Nat)
    (hidx_eq : hash (K.take K.length) % t.array_count = idx)
    (hlen2 : idx < t.buckets.length)
    (hsl : _search_list_by_key K K.length (t.buckets.getD idx []) = some pair)
    (hfkm : keyMatches K K.length (f pair) = true)
    (hfvs : (f pair).value_size = V.length)
    (hfbytes : 0 < V.length →
      ((f pair).data.drop (f pair).key_size).take V.length = V) :
    hashtable_retrieve hash
        ⟨{ t with buckets := t.buckets.set idx (updateFirstMatch K K.length f (t.buckets.getD idx [])) }, m⟩
        (some K) K.length
      = (0, (if 0 < V.length then some V else none), some V.length,
         ⟨{ t with buckets := t.buckets.set idx (updateFirstMatch K K.length f (t.buckets.getD idx [])) }, m⟩) := by
  have hchain2 := getD_set_self t.buckets idx
    (updateFirstMatch K K.length f (t.buckets.getD idx [])) hlen2
  have hq := search_updateFirstMatch K K.length f _ pair hsl hfkm
  have hidx2 : _get_table_index_by_key hash
      ({ t with buckets := t.buckets.set idx (updateFirstMatch K K.length f (t.buckets.getD idx [])) } : Table)
      K K.length = idx := hidx_eq
  simp only [hashtable_retrieve, hidx2]
  rw [hchain2, hq]
  simp only []
  rw [hfvs]
  by_cases hv : 0 < V.length
  · rw [if_pos hv, if_pos hv, hfbytes hv]
  · rw [if_neg hv, if_neg hv]

/-- C2: round-trip.  On a well-formed table, if `hashtable_insert` of key `K`
(nonempty) with value `V` returns ok, an immediately following
`hashtable_retrieve` of `K` returns ok, reports value size `|V|`, and the
value bytes read through the returned pointer are exactly `V` (the value
pointer is written only for a positive size; for `|V| = 0` the size output
`0` is reported and the value output is untouched). -/
theorem c2_roundtrip (hash : HashFn) (s : Sys) (K V : List Byte)
    (hWF : WF hash s.table) (hK : 1 ≤ K.length) (s' : Sys)
    (hins : hashtable_insert hash s (some K) K.length (some V) V.length
      = (0, s')) :
    hashtable_retrieve hash s' (some K) K.length =
      (0, (if 0 < V.length then some V else none), some V.length, s') := by
  obtain ⟨hpos, hlen, hcnt, hbytes, hpwf, hfwf, hnd, hplace⟩ := hWF
  have hidxlt : _get_table_index_by_key hash s.table K K.length
      < s.table.buckets.length := by
    rw [hlen]; exact idx_lt hash s.table K K.length hpos
  rw [hashtable_insert] at hins
  rw [if_neg (by omega)] at hins
  have hndchain : (((s.table.buckets.getD
      (_get_table_index_by_key hash s.table K K.length) []).map
        fun p => (p.key_size, keyBytes p)).Nodup) :=
    hnd _ (getD_mem _ _ hidxlt)
  cases hsl : _search_list_by_key K K.length
      (s.table.buckets.getD (_get_table_index_by_key hash s.table K K.length) [])
    with
  | some pair =>
    obtain ⟨hkm, hmem⟩ := search_some_facts _ _ _ _ hsl
    obtain ⟨hpks, hpkb⟩ := (keyMatches_iff _ _ _).mp hkm
    have hpwf2 : pair.key_size + pair.value_size ≤ pair.data.length :=
      hpwf pair (List.mem_flatten.mpr ⟨_, getD_mem _ _ hidxlt, hmem⟩)
    have hdlen : K.length ≤ pair.data.length := by omega
    simp only [_insert_keyval_pair, hsl] at hins
    by_cases hle : V.length ≤ pair.value_size
    · rw [if_pos hle] at hins
      injection hins with h1 h2
      subst h2
      apply retrieve_after_update hash s.error_msg K V s.table _ pair
        (_get_table_index_by_key hash s.table K K.length) rfl hidxlt hsl
      · apply (keyMatches_iff _ _ _).mpr
        refine ⟨hpks, ?_⟩
        show (if 0 < V.length ∧ (some V : Option (List Byte)).isSome = true then
                memcpy_at pair.data pair.key_size ((some V).getD []) V.length
              else pair.data).take K.length = K.take K.length
        split
        · rw [hpks]
          rw [show ((some V : Option (List Byte)).getD []) = V from rfl]
          rw [memcpy_take_key pair.data K.length V.length V hdlen, hpkb]
        · exact hpkb
      · rfl
      · intro hv
        show ((if 0 < V.length ∧ (some V : Option (List Byte)).isSome = true then
                 memcpy_at pair.data pair.key_size ((some V).getD []) V.length
               else pair.data).drop pair.key_size).take V.length = V
        rw [if_pos ⟨hv, rfl⟩]
        rw [show ((some V : Option (List Byte)).getD []) = V from rfl, hpks]
        exact memcpy_value_bytes pair.data K.length V hdlen
    · rw [if_neg hle] at hins
      rw [remove_from_table_eq] at hins
      simp only [] at hins
      rw [if_neg (show ¬((0 : Int) < 0) by decide)] at hins
      rcases hstore : _store_keyval_pair
          (_remove_from_table s.table
            (_get_table_index_by_key hash s.table K K.length) K K.length pair).2
          K K.length (some V) V.length with ⟨o, t₂⟩
      cases o with
      | none =>
        rw [show _insert_store_and_link
              (_remove_from_table s.table
                (_get_table_index_by_key hash s.table K K.length) K K.length pair).2
              (_get_table_index_by_key hash s.table K K.length)
              K K.length (some V) V.length = (1, t₂) from by
            simp only [_insert_store_and_link, hstore]] at hins
        simp only [] at hins
        injection hins with h1 h2
        exact absurd h1 (by decide)
      | some newp =>
        rw [show _insert_store_and_link
              (_remove_from_table s.table
                (_get_table_index_by_key hash s.table K K.length) K K.length pair).2
              (_get_table_index_by_key hash s.table K K.length)
              K K.length (some V) V.length = (0, linkPair t₂
                (_get_table_index_by_key hash s.table K K.length) newp) from by
            simp only [_insert_store_and_link, hstore]] at hins
        simp only [] at hins
        injection hins with h1 h2
        subst h2
        obtain ⟨hex, hbuck2, harr2, -⟩ := store_success_shape _ _ _ _ _ _ _ hstore
        obtain ⟨hrb, hra, -⟩ := remove_from_table_shape s.table
          (_get_table_index_by_key hash s.table K K.length) K K.length pair
        have hchain2 : t₂.buckets.getD
            (_get_table_index_by_key hash s.table K K.length) []
            = removeFirstMatch K K.length
                (s.table.buckets.getD
                  (_get_table_index_by_key hash s.table K K.length) []) := by
          rw [hbuck2, hrb]
          exact getD_set_self _ _ _ hidxlt
        exact retrieve_after_link hash s.error_msg K V t₂ newp
          (_get_table_index_by_key hash s.table K K.length)
          (by rw [harr2, hra]; rfl)
          (by rw [hbuck2, hrb, List.length_set]; exact hidxlt)
          (by rw [hchain2]; exact removeFirstMatch_no_match K K.length _ hndchain)
          hex
  | none =>
    simp only [_insert_keyval_pair, hsl] at hins
    rcases hstore : _store_keyval_pair s.table K K.length (some V) V.length
      with ⟨o, t₂⟩
    cases o with
    | none =>
      rw [show _insert_store_and_link s.table
            (_get_table_index_by_key hash s.table K K.length)
            K K.length (some V) V.length = (1, t₂) from by
          simp only [_insert_store_and_link, hstore]] at hins
      simp only [] at hins
      injection hins with h1 h2
      exact absurd h1 (by decide)
    | some newp =>
      rw [show _insert_store_and_link s.table
            (_get_table_index_by_key hash s.table K K.length)
            K K.length (some V) V.length = (0, linkPair t₂
              (_get_table_index_by_key hash s.table K K.length) newp) from by
          simp only [_insert_store_and_link, hstore]] at hins
      simp only [] at hins
      injection hins with h1 h2
      subst h2
      obtain ⟨hex, hbuck2, harr2, -⟩ := store_success_shape _ _ _ _ _ _ _ hstore
      exact retrieve_after_link hash s.error_msg K V t₂ newp
        (_get_table_index_by_key hash s.table K K.length)
        (by rw [harr2]; rfl)
        (by rw [hbuck2]; exact hidxlt)
        (by rw [hbuck2]; exact hsl)
        hex

/-- C2 (witness): the round-trip theorem applied to inserting key `[65]`
with value `[7, 8]` into a fresh single-bucket table. -/
theorem c2_roundtrip_witness :
    hashtable_retrieve _fnv1a_hash
        (hashtable_insert _fnv1a_hash wSys (some [65]) 1 (some [7, 8]) 2).2
        (some [65]) 1
      = (0, some [7, 8], some 2,
         (hashtable_insert _fnv1a_hash wSys (some [65]) 1 (some [7, 8]) 2).2) :=
  c2_roundtrip _fnv1a_hash wSys [65] [7, 8] (by decide) (by decide) _ (by decide)

theorem retrieve_found (hash : HashFn) (m : String) (K : List Byte) (ks : Nat)
    (t : Table) (q : _keyval_pair_t)
    (hq : _search_list_by_key K ks
      (t.buckets.getD (_get_table_index_by_key hash t K ks) []) = some q) :
    (hashtable_retrieve hash ⟨t, m⟩ (some K) ks).1 = 0 ∧
    (hashtable_retrieve hash ⟨t, m⟩ (some K) ks).2.2.1 = some q.value_size := by
  simp only [hashtable_retrieve]
  rw [hq]
  exact ⟨rfl, rfl⟩

theorem search_after_link (hash : HashFn) (K : List Byte) (ks : Nat)
    (t₂ : Table) (newp : _keyval_pair_t) (idx : Nat)
    (hidx_eq : hash (K.take ks) % t₂.array_count = idx)
    (hlen2 : idx < t₂.buckets.length)
    (hnomatch : _search_list_by_key K ks (t₂.buckets.getD idx []) = none)
    (hkm : keyMatches K ks newp = true) :
    _search_list_by_key K ks ((linkPair t₂ idx newp).buckets.getD
      (_get_table_index_by_key hash (linkPair t₂ idx newp) K ks) [])
      = some newp := by
  obtain ⟨hbuck, harr, -⟩ := linkPair_shape t₂ idx newp
  have hidx2 : _get_table_index_by_key hash (linkPair t₂ idx newp) K ks
      = idx := by
    unfold _get_table_index_by_key
    rw [harr, hidx_eq]
  rw [hidx2, hbuck, getD_set_self _ _ _ hlen2,
      search_append_of_none _ _ _ _ hnomatch, _search_list_by_key, if_pos hkm]

theorem retrieve_after_update_size (hash : HashFn) (m : String) (K : List Byte)
    (t : Table) (f : _keyval_pair_t → _keyval_pair_t) (pair : _keyval_pair_t)
    (idx : Nat)
    (hidx_eq : hash (K.take K.length) % t.array_count = idx)
    (hlen2 : idx < t.buckets.length)
    (hsl : _search_list_by_key K K.length (t.buckets.getD idx []) = some pair)
    (hfkm : keyMatches K K.length (f pair) = true) :
    (hashtable_retrieve hash
        ⟨{ t with buckets := t.buckets.set idx (updateFirstMatch K K.length f (t.buckets.getD idx [])) }, m⟩
        (some K) K.length).1 = 0 ∧
    (hashtable_retrieve hash
        ⟨{ t with buckets := t.buckets.set idx (updateFirstMatch K K.length f (t.buckets.getD idx [])) }, m⟩
        (some K) K.length).2.2.1 = some ((f pair).value_size) := by
  have hchain2 := getD_set_self t.buckets idx
    (updateFirstMatch K K.length f (t.buckets.getD idx [])) hlen2
  have hq := search_updateFirstMatch K K.length f _ pair hsl hfkm
  have hidx2 : _get_table_index_by_key hash
      ({ t with buckets := t.buckets.set idx (updateFirstMatch K K.length f (t.buckets.getD idx [])) } : Table)
      K K.length = idx := hidx_eq
  constructor <;>
  · simp only [hashtable_retrieve, hidx2]
    rw [hchain2, hq]

/-- C10: `hashtable_insert` with a `NULL` value pointer and a nonzero
`value_size` is not rejected as invalid (the status is never `-1`), and
whenever it returns ok the stored record's `value_size` is the given nonzero
size while the value-byte copy was skipped, so a following
`hashtable_retrieve` of the key returns ok and reports that nonzero size. -/
theorem c10_null_value (hash : HashFn) (s : Sys) (K : List Byte) (vs : Nat)
    (hWF : WF hash s.table) (hK : 1 ≤ K.length) (hvs : 0 < vs) :
    (hashtable_insert hash s (some K) K.length none vs).1 ≠ -1 ∧
    (∀ s', hashtable_insert hash s (some K) K.length none vs = (0, s') →
      (hashtable_retrieve hash s' (some K) K.length).1 = 0 ∧
      (hashtable_retrieve hash s' (some K) K.length).2.2.1 = some vs) := by
  obtain ⟨hpos, hlen, hcnt, hbytes, hpwf, hfwf, hnd, hplace⟩ := hWF
  have hidxlt : _get_table_index_by_key hash s.table K K.length
      < s.table.buckets.length := by
    rw [hlen]; exact idx_lt hash s.table K K.length hpos
  have hndchain : (((s.table.buckets.getD
      (_get_table_index_by_key hash s.table K K.length) []).map
        fun p => (p.key_size, keyBytes p)).Nodup) :=
    hnd _ (getD_mem _ _ hidxlt)
  constructor
  · rw [hashtable_insert, if_neg (by omega)]
    simp only [_insert_keyval_pair]
    cases hsl : _search_list_by_key K K.length
        (s.table.buckets.getD (_get_table_index_by_key hash s.table K K.length) [])
      with
    | some pair =>
      simp only []
      split
      · simp
      · rw [remove_from_table_eq]
        simp only []
        rw [if_neg (show ¬((0 : Int) < 0) by decide)]
        rw [wrap_fst]
        rcases store_and_link_status
            (_remove_from_table s.table
              (_get_table_index_by_key hash s.table K K.length) K K.length pair).2
            (_get_table_index_by_key hash s.table K K.length)
            K K.length none vs with h | h <;> rw [h] <;> decide
    | none =>
      rw [wrap_fst]
      rcases store_and_link_status s.table
          (_get_table_index_by_key hash s.table K K.length)
          K K.length none vs with h | h <;> rw [h] <;> decide
  · intro s' hins
    rw [hashtable_insert, if_neg (by omega)] at hins
    cases hsl : _search_list_by_key K K.length
        (s.table.buckets.getD (_get_table_index_by_key hash s.table K K.length) [])
      with
    | some pair =>
      obtain ⟨hkm, hmem⟩ := search_some_facts _ _ _ _ hsl
      obtain ⟨hpks, hpkb⟩ := (keyMatches_iff _ _ _).mp hkm
      simp only [_insert_keyval_pair, hsl] at hins
      by_cases hle : vs ≤ pair.value_size
      · rw [if_pos hle] at hins
        injection hins with h1 h2
        subst h2
        apply retrieve_after_update_size hash s.error_msg K s.table
          (fun (p : _keyval_pair_t) =>
            { p with
              data := if 0 < vs ∧ (none : Option (List Byte)).isSome then
                        memcpy_at p.data p.key_size
                          ((none : Option (List Byte)).getD []) vs
                      else p.data
              value_size := vs })
          pair (_get_table_index_by_key hash s.table K K.length) rfl hidxlt hsl
        apply (keyMatches_iff _ _ _).mpr
        refine ⟨hpks, ?_⟩
        show (if 0 < vs ∧ (none : Option (List Byte)).isSome = true then
                memcpy_at pair.data pair.key_size
                  ((none : Option (List Byte)).getD []) vs
              else pair.data).take K.length = K.take K.length
        rw [if_neg (by simp)]
        exact hpkb
      · rw [if_neg hle] at hins
        rw [remove_from_table_eq] at hins
        simp only [] at hins
        rw [if_neg (show ¬((0 : Int) < 0) by decide)] at hins
        rcases hstore : _store_keyval_pair
            (_remove_from_table s.table
              (_get_table_index_by_key hash s.table K K.length) K K.length pair).2
            K K.length none vs with ⟨o, t₂⟩
        cases o with
        | none =>
          rw [show _insert_store_and_link
                (_remove_from_table s.table
                  (_get_table_index_by_key hash s.table K K.length) K K.length
                  pair).2
                (_get_table_index_by_key hash s.table K K.length)
                K K.length none vs = (1, t₂) from by
              simp only [_insert_store_and_link, hstore]] at hins
          simp only [] at hins
          injection hins with h1 h2
          exact absurd h1 (by decide)
        | some newp =>
          rw [show _insert_store_and_link
                (_remove_from_table s.table
                  (_get_table_index_by_key hash s.table K K.length) K K.length
                  pair).2
                (_get_table_index_by_key hash s.table K K.length)
                K K.length none vs = (0, linkPair t₂
                  (_get_table_index_by_key hash s.table K K.length) newp) from by
              simp only [_insert_store_and_link, hstore]] at hins
          simp only [] at hins
          injection hins with h1 h2
          subst h2
          obtain ⟨hex, hbuck2, harr2, -⟩ := store_success_shape _ _ _ _ _ _ _ hstore
          obtain ⟨hrb, hra, -⟩ := remove_from_table_shape s.table
            (_get_table_index_by_key hash s.table K K.length) K K.length pair
          obtain ⟨ret, hret⟩ := hex
          have hvsz : newp.value_size = vs := by rw [hret]; rfl
          have hchain2 : t₂.buckets.getD
              (_get_table_index_by_key hash s.table K K.length) []
              = removeFirstMatch K K.length
                  (s.table.buckets.getD
                    (_get_table_index_by_key hash s.table K K.length) []) := by
            rw [hbuck2, hrb]
            exact getD_set_self _ _ _ hidxlt
          have hq := search_after_link hash K K.length t₂ newp
            (_get_table_index_by_key hash s.table K K.length)
            (by rw [harr2, hra]; rfl)
            (by rw [hbuck2, hrb, List.length_set]; exact hidxlt)
            (by rw [hchain2]
                exact removeFirstMatch_no_match K K.length _ hndchain)
            (by
              apply (keyMatches_iff _ _ _).mpr
              refine ⟨by rw [hret]; rfl, ?_⟩
              rw [hret]
              exact populate_take_key ret K K.length none vs le_rfl)
          obtain ⟨h1, h2⟩ := retrieve_found hash s.error_msg K K.length _ _ hq
          rw [hvsz] at h2
          exact ⟨h1, h2⟩
    | none =>
      simp only [_insert_keyval_pair, hsl] at hins
      rcases hstore : _store_keyval_pair s.table K K.length none vs with ⟨o, t₂⟩
      cases o with
      | none =>
        rw [show _insert_store_and_link s.table
              (_get_table_index_by_key hash s.table K K.length)
              K K.length none vs = (1, t₂) from by
            simp only [_insert_store_and_link, hstore]] at hins
        simp only [] at hins
        injection hins with h1 h2
        exact absurd h1 (by decide)
      | some newp =>
        rw [show _insert_store_and_link s.table
              (_get_table_index_by_key hash s.table K K.length)
              K K.length none vs = (0, linkPair t₂
                (_get_table_index_by_key hash s.table K K.length) newp) from by
            simp only [_insert_store_and_link, hstore]] at hins
        simp only [] at hins
        injection hins with h1 h2
        subst h2
        obtain ⟨hex, hbuck2, harr2, -⟩ := store_success_shape _ _ _ _ _ _ _ hstore
        obtain ⟨ret, hret⟩ := hex
        have hvsz : newp.value_size = vs := by rw [hret]; rfl
        have hq := search_after_link hash K K.length t₂ newp
          (_get_table_index_by_key hash s.table K K.length)
          (by rw [harr2]; rfl)
          (by rw [hbuck2]; exact hidxlt)
          (by rw [hbuck2]; exact hsl)
          (by
            apply (keyMatches_iff _ _ _).mpr
            refine ⟨by rw [hret]; rfl, ?_⟩
            rw [hret]
            exact populate_take_key ret K K.length none vs le_rfl)
        obtain ⟨h1, h2⟩ := retrieve_found hash s.error_msg K K.length _ _ hq
        rw [hvsz] at h2
        exact ⟨h1, h2⟩

/-- C10 (witness): the theorem applied to inserting key `[66]` with a `NULL`
value pointer and `value_size = 3` into a fresh table. -/
theorem c10_null_value_witness :
    (hashtable_insert _fnv1a_hash wSys (some [66]) 1 none 3).1 ≠ -1 ∧
    (hashtable_retrieve _fnv1a_hash
        (hashtable_insert _fnv1a_hash wSys (some [66]) 1 none 3).2
        (some [66]) 1).1 = 0 ∧
    (hashtable_retrieve _fnv1a_hash
        (hashtable_insert _fnv1a_hash wSys (some [66]) 1 none 3).2
        (some [66]) 1).2.2.1 = some 3 :=
  ⟨(c10_null_value _fnv1a_hash wSys [66] 3 (by decide) (by decide) (by decide)).1,
   (c10_null_value _fnv1a_hash wSys [66] 3 (by decide) (by decide) (by decide)).2
     _ (by decide)⟩

/-- C5 (counterexample): on the valid table `c5Table`, which stores key
`[65]` with a 5-byte value and whose free list holds a record of footprint
37, inserting `[65]` with a 12-byte value (request 37) returns ok but reuses
the free-list record, leaving `bytes_remaining` unchanged — refuting the
claim that an overwrite with a larger value strictly decreases
`bytes_remaining`. -/
theorem c5_overwrite_grow_counterexample :
    WF _fnv1a_hash c5Table ∧
    _search_list_by_key [65] 1
        (c5Table.buckets.getD
          (_get_table_index_by_key _fnv1a_hash c5Table [65] 1) [])
      = some ⟨1, 5, [65, 1, 2, 3, 4, 5]⟩ ∧
    (5 : Nat) < 12 ∧
    (hashtable_insert _fnv1a_hash ⟨c5Table, ""⟩ (some [65]) 1
      (some (List.replicate 12 7)) 12).1 = 0 ∧
    (hashtable_bytes_remaining
        (hashtable_insert _fnv1a_hash ⟨c5Table, ""⟩ (some [65]) 1
          (some (List.replicate 12 7)) 12).2).2.1
      = (hashtable_bytes_remaining ⟨c5Table, ""⟩).2.1 := by
  decide

/-- C5 (amended): when an ok `hashtable_insert` overwrites key `K` (stored
with a smaller value) by a larger value `V`, the old record is unlinked to
the free list and then storage is allocated for the new record:
`total_bytes` is unchanged; if no record of the free list (which now ends
with the just-freed old record, whose footprint never suffices) fits the
required size, the new record is bump-allocated, `bytes_used` grows by
exactly the required size and `bytes_remaining` strictly decreases; if some
free-list record fits, it is reused and `bytes_used` (hence
`bytes_remaining`) is unchanged. -/
theorem c5_overwrite_grow_amended (hash : HashFn) (s : Sys) (K V : List Byte)
    (pair : _keyval_pair_t)
    (hWF : WF hash s.table)
    (hfound : _search_list_by_key K K.length
        (s.table.buckets.getD (_get_table_index_by_key hash s.table K K.length) [])
      = some pair)
    (hgrow : pair.value_size < V.length)
    (hok : (hashtable_insert hash s (some K) K.length (some V) V.length).1
      = 0) :
    (hashtable_insert hash s (some K) K.length
        (some V) V.length).2.table.total_bytes = s.table.total_bytes ∧
    ((s.table.freelist ++ [pair]).find?
        (fitsRequired (sizeof_keyval_pair + K.length + V.length)) = none →
      (hashtable_insert hash s (some K) K.length
          (some V) V.length).2.table.bytes_used
        = s.table.bytes_used + (sizeof_keyval_pair + K.length + V.length) ∧
      (hashtable_insert hash s (some K) K.length
          (some V) V.length).2.table.total_bytes
        - (hashtable_insert hash s (some K) K.length
            (some V) V.length).2.table.bytes_used
        < s.table.total_bytes - s.table.bytes_used) ∧
    (∀ r, (s.table.freelist ++ [pair]).find?
        (fitsRequired (sizeof_keyval_pair + K.length + V.length)) = some r →
      (hashtable_insert hash s (some K) K.length
          (some V) V.length).2.table.bytes_used = s.table.bytes_used) := by
  by_cases hk0 : K.length = 0
  · rw [hashtable_insert] at hok
    rw [if_pos hk0] at hok
    simp at hok
  have hle : ¬ V.length ≤ pair.value_size := by omega
  rcases hstore : _store_keyval_pair
      (_remove_from_table s.table
        (_get_table_index_by_key hash s.table K K.length) K K.length pair).2
      K K.length (some V) V.length with ⟨o, t₂⟩
  obtain ⟨hrb, hra, hrf, hrt, hrby, -⟩ := remove_from_table_shape s.table
    (_get_table_index_by_key hash s.table K K.length) K K.length pair
  cases o with
  | none =>
    rw [hashtable_insert, if_neg hk0] at hok
    simp only [_insert_keyval_pair, hfound] at hok
    rw [if_neg hle, remove_from_table_eq] at hok
    simp only [] at hok
    rw [if_neg (show ¬((0 : Int) < 0) by decide)] at hok
    rw [show _insert_store_and_link
          (_remove_from_table s.table
            (_get_table_index_by_key hash s.table K K.length) K K.length pair).2
          (_get_table_index_by_key hash s.table K K.length)
          K K.length (some V) V.length = (1, t₂) from by
        simp only [_insert_store_and_link, hstore]] at hok
    simp at hok
  | some newp =>
    have hE : hashtable_insert hash s (some K) K.length (some V) V.length
        = (0, { s with table := linkPair t₂ (_get_table_index_by_key hash s.table K K.length) newp }) := by
      rw [hashtable_insert, if_neg hk0]
      simp only [_insert_keyval_pair, hfound]
      rw [if_neg hle, remove_from_table_eq]
      simp only []
      rw [if_neg (show ¬((0 : Int) < 0) by decide)]
      rw [show _insert_store_and_link
            (_remove_from_table s.table
              (_get_table_index_by_key hash s.table K K.length) K K.length pair).2
            (_get_table_index_by_key hash s.table K K.length)
            K K.length (some V) V.length = (0, linkPair t₂
              (_get_table_index_by_key hash s.table K K.length) newp) from by
          simp only [_insert_store_and_link, hstore]]
    rw [hE]
    obtain ⟨-, -, -, hlt, hlb, -⟩ := linkPair_shape t₂
      (_get_table_index_by_key hash s.table K K.length) newp
    rw [store_keyval_eq] at hstore
    rw [hrf] at hstore
    cases hf : (s.table.freelist ++ [pair]).find?
        (fitsRequired (sizeof_keyval_pair + K.length + V.length)) with
    | some r =>
      rw [hf] at hstore
      simp only [] at hstore
      injection hstore with h1 h2
      subst h2
      refine ⟨?_, ?_, ?_⟩
      · rw [hlt, hrt]
      · intro hnone
        simp [hf] at hnone
      · intro r2 hr2
        rw [hlb, hrby]
    | none =>
      rw [hf] at hstore
      simp only [] at hstore
      split at hstore
      · exact absurd hstore (by simp)
      · rename_i hroom
        injection hstore with h1 h2
        have ht2b : t₂.bytes_used
            = (_remove_from_table s.table
                (_get_table_index_by_key hash s.table K K.length) K K.length
                pair).2.bytes_used
              + (sizeof_keyval_pair + K.length + V.length) := by rw [← h2]
        have ht2t : t₂.total_bytes
            = (_remove_from_table s.table
                (_get_table_index_by_key hash s.table K K.length) K K.length
                pair).2.total_bytes := by rw [← h2]
        have h24 : sizeof_keyval_pair = 24 := rfl
        refine ⟨?_, ?_, ?_⟩
        · rw [hlt, ht2t, hrt]
        · intro _
          constructor
          · rw [hlb, ht2b, hrby]
          · rw [hlt, hlb, ht2t, ht2b]
            rw [hrt, hrby] at hroom ⊢
            omega
        · intro r2 hr2
          simp [hf] at hr2

/-- C5 (witness): the amended theorem applied to a table with an empty free
list: the overwrite of key `[65]` (stored value size 1) by the two-byte value
`[3, 4]` bump-allocates and `bytes_remaining` strictly decreases. -/
theorem c5_overwrite_grow_amended_witness :
    (c5wSys.table.freelist ++ [(⟨1, 1, [65, 9]⟩ : _keyval_pair_t)]).find?
        (fitsRequired (sizeof_keyval_pair + 1 + 2)) = none ∧
    (hashtable_insert _fnv1a_hash c5wSys (some [65]) 1 (some [3, 4]) 2).2.table.total_bytes
        - (hashtable_insert _fnv1a_hash c5wSys (some [65]) 1 (some [3, 4]) 2).2.table.bytes_used
      < c5wSys.table.total_bytes - c5wSys.table.bytes_used :=
  ⟨by decide,
   ((c5_overwrite_grow_amended _fnv1a_hash c5wSys [65] [3, 4] ⟨1, 1, [65, 9]⟩
       (by decide) (by decide) (by decide) (by decide)).2.1 (by decide)).2⟩

theorem getD_eq_get (l : List (List _keyval_pair_t)) (i : Nat)
    (h : i < l.length) : l.getD i [] = l[i] := by
  rw [List.getD_eq_getElem?_getD, List.getElem?_eq_getElem h]
  rfl

theorem drop_getD_cons (l : List (List _keyval_pair_t)) (i : Nat)
    (h : i < l.length) : l.drop i = l.getD i [] :: l.drop (i + 1) := by
  rw [getD_eq_get l i h]
  exact List.drop_eq_getElem_cons h

theorem cursorRemaining_nil (t : Table) (h : t.cursor_item = []) :
    cursorRemaining t = (t.buckets.drop t.cursor_array_index).flatten := by
  unfold cursorRemaining
  rw [h]
  simp

theorem cursorRemaining_cons (t : Table) (q : _keyval_pair_t)
    (qs : List _keyval_pair_t) (h : t.cursor_item = q :: qs) :
    cursorRemaining t
      = q :: (qs ++ (t.buckets.drop (t.cursor_array_index + 1)).flatten) := by
  unfold cursorRemaining
  rw [h]
  simp

theorem cursorRemaining_step (t : Table) (qs : List _keyval_pair_t)
    (i trav : Nat) :
    cursorRemaining
      { t with cursor_item := qs,
               cursor_array_index := if qs.isEmpty then i + 1 else i,
               cursor_items_traversed := trav }
      = qs ++ (t.buckets.drop (i + 1)).flatten := by
  rcases qs with _ | ⟨q, qs⟩
  · simp [cursorRemaining]
  · simp [cursorRemaining]

theorem next_go_end (fuel : Nat) (t : Table)
    (hent : t.entry_count = t.cursor_items_traversed + (cursorRemaining t).length)
    (hrem : cursorRemaining t = []) :
    _next_item_go fuel t = (none, t) := by
  cases fuel with
  | zero => rfl
  | succ n =>
    have hng : ¬(t.cursor_array_index < t.array_count ∧
        t.cursor_items_traversed < t.entry_count) := by
      rintro ⟨-, h2⟩
      rw [hent, hrem] at h2
      simp at h2
    simp only [_next_item_go]
    rw [if_neg hng]

theorem next_go_step :
    ∀ (n : Nat) (t : Table) (p : _keyval_pair_t) (rest : List _keyval_pair_t),
      CursorInv t →
      n = t.array_count - t.cursor_array_index →
      cursorRemaining t = p :: rest →
      ∃ t2, _next_item_go n t = (some p, t2) ∧ CursorInv t2 ∧
        cursorRemaining t2 = rest := by
  intro n
  induction n with
  | zero =>
    intro t p rest hinv hn hrem
    exfalso
    obtain ⟨hlen, hent, hlim, hcur⟩ := hinv
    by_cases hci : t.cursor_item = []
    · have hd2 : t.buckets.drop t.cursor_array_index = [] :=
        List.drop_eq_nil_of_le (by omega)
      rw [cursorRemaining_nil t hci, hd2] at hrem
      simp at hrem
    · exact absurd (hcur hci) (by omega)
  | succ n ih =>
    intro t p rest hinv hn hrem
    obtain ⟨hlen, hent, hlim, hcur⟩ := hinv
    have hidx : t.cursor_array_index < t.array_count := by omega
    have htrav : t.cursor_items_traversed < t.entry_count := by
      rw [hent, hrem]
      simp only [List.length_cons]
      omega
    simp only [_next_item_go]
    rw [if_pos ⟨hidx, htrav⟩]
    rcases hcur2 : (if t.cursor_item.isEmpty then
        t.buckets.getD t.cursor_array_index [] else t.cursor_item)
      with _ | ⟨q, qs⟩
    · -- the current chain is exhausted and the bucket is empty: advance
      have hci : t.cursor_item = [] := by
        by_cases h : t.cursor_item.isEmpty
        · exact List.isEmpty_iff.mp h
        · rw [if_neg h] at hcur2
          exact hcur2
      have hb : t.buckets.getD t.cursor_array_index [] = [] := by
        rw [if_pos (by rw [hci]; rfl)] at hcur2
        exact hcur2
      have hd : t.buckets.drop t.cursor_array_index
          = [] :: t.buckets.drop (t.cursor_array_index + 1) := by
        have hdd := drop_getD_cons t.buckets t.cursor_array_index (by omega)
        rw [hb] at hdd
        exact hdd
      have hrt : cursorRemaining t
          = (t.buckets.drop (t.cursor_array_index + 1)).flatten := by
        rw [cursorRemaining_nil t hci, hd]
        simp
      have hrem2 : cursorRemaining
          { t with cursor_array_index := t.cursor_array_index + 1 }
          = p :: rest := by
        rw [cursorRemaining_nil
          { t with cursor_array_index := t.cursor_array_index + 1 } hci]
        show (t.buckets.drop (t.cursor_array_index + 1)).flatten = p :: rest
        rw [← hrt]
        exact hrem
      refine ih { t with cursor_array_index := t.cursor_array_index + 1 }
        p rest ⟨hlen, ?_, hlim, ?_⟩ ?_ hrem2
      · rw [hrem2]
        show t.entry_count = t.cursor_items_traversed + (p :: rest).length
        rw [hent, hrem]
      · intro h
        exact absurd hci h
      · show n = t.array_count - (t.cursor_array_index + 1)
        omega
    · -- the loop emits the head of the current chain
      have hsplit : cursorRemaining t
          = q :: (qs ++ (t.buckets.drop (t.cursor_array_index + 1)).flatten) := by
        by_cases h : t.cursor_item.isEmpty
        · have hci : t.cursor_item = [] := List.isEmpty_iff.mp h
          rw [if_pos h] at hcur2
          have hd := drop_getD_cons t.buckets t.cursor_array_index (by omega)
          rw [cursorRemaining_nil t hci, hd, hcur2]
          simp
        · have hci : t.cursor_item = q :: qs := by
            rw [if_neg h] at hcur2
            exact hcur2
          exact cursorRemaining_cons t q qs hci
      rw [hsplit] at hrem
      injection hrem with hq hrest
      subst hq
      subst hrest
      have hremT := cursorRemaining_step t qs t.cursor_array_index
        (t.cursor_items_traversed + 1)
      refine ⟨_, rfl, ⟨?_, ?_, ?_, ?_⟩, ?_⟩
      · exact hlen
      · rw [hremT]
        show t.entry_count
            = t.cursor_items_traversed + 1
              + (qs ++ (t.buckets.drop (t.cursor_array_index + 1)).flatten).length
        rw [hent, hsplit]
        simp only [List.length_cons]
        omega
      · exact hlim
      · intro h
        by_cases hq2 : qs = []
        · exact absurd hq2 h
        · have hqe : qs.isEmpty = false := by
            rcases qs with _ | _
            · exact absurd rfl hq2
            · rfl
          show (if qs.isEmpty then t.cursor_array_index + 1
                else t.cursor_array_index) < t.array_count
          simpa [hqe] using hidx
      · exact hremT

theorem next_item_ok (s : Sys) (p : _keyval_pair_t)
    (rest : List _keyval_pair_t) (hinv : CursorInv s.table)
    (hrem : cursorRemaining s.table = p :: rest) :
    ∃ t2, hashtable_next_item s = (0, some p, { s with table := t2 }) ∧
      CursorInv t2 ∧ cursorRemaining t2 = rest := by
  obtain ⟨t2, hgo, hinv2, hrem2⟩ :=
    next_go_step (s.table.array_count - s.table.cursor_array_index)
      s.table p rest hinv rfl hrem
  refine ⟨t2, ?_, hinv2, hrem2⟩
  have hlim : s.table.cursor_limit = false := hinv.2.2.1
  unfold hashtable_next_item
  rw [if_neg (by rw [hlim]; simp)]
  unfold _next_item_loop
  rw [hgo]

theorem next_item_end (s : Sys) (hinv : CursorInv s.table)
    (hrem : cursorRemaining s.table = []) :
    hashtable_next_item s
      = (1, none,
         { table := { s.table with cursor_limit := true },
           error_msg := "Cursor limit reached" }) := by
  have hlim : s.table.cursor_limit = false := hinv.2.2.1
  unfold hashtable_next_item
  rw [if_neg (by rw [hlim]; simp)]
  unfold _next_item_loop
  rw [next_go_end _ _ hinv.2.1 hrem]

theorem collect_next_complete :
    ∀ (rem : List _keyval_pair_t) (s : Sys),
      CursorInv s.table → cursorRemaining s.table = rem →
      (collect_next (rem.length + 1) s).1 = rem ∧
      (collect_next (rem.length + 1) s).2.1 = true := by
  intro rem
  induction rem with
  | nil =>
    intro s hinv hrem
    rw [List.length_nil]
    simp only [collect_next]
    rw [next_item_end s hinv hrem]
    exact ⟨rfl, rfl⟩
  | cons p rest ih =>
    intro rem hinv hrem
    obtain ⟨t2, hni, hinv2, hrem2⟩ := next_item_ok rem p rest hinv hrem
    have hstep : collect_next ((p :: rest).length + 1) rem
        = (p :: (collect_next (rest.length + 1) { rem with table := t2 }).1,
           (collect_next (rest.length + 1) { rem with table := t2 }).2.1,
           (collect_next (rest.length + 1) { rem with table := t2 }).2.2) := by
      show collect_next (rest.length + 1 + 1) rem = _
      simp only [collect_next]
      rw [hni]
    rw [hstep]
    obtain ⟨h1, h2⟩ := ih { rem with table := t2 } hinv2 hrem2
    exact ⟨by rw [h1], h2⟩

/-- C4 (iterator completeness): on any well-formed table, after
`hashtable_reset_cursor` the repeated `hashtable_next_item` calls of
`collect_next` emit (with status ok) exactly the records of all bucket
chains, in bucket order — in particular exactly `entry_count` ok returns,
one per live record, emitting every stored key — and the next call after
them is the first end return. -/
theorem c4_iterator_complete (hash : HashFn) (s : Sys) (hWF : WF hash s.table) :
    (collect_next (s.table.buckets.flatten.length + 1)
        (hashtable_reset_cursor s).2).1
      = s.table.buckets.flatten ∧
    (collect_next (s.table.buckets.flatten.length + 1)
        (hashtable_reset_cursor s).2).2.1
      = true := by
  obtain ⟨hpos, hlen, hcnt, -⟩ := hWF
  have hrem : cursorRemaining (hashtable_reset_cursor s).2.table
      = s.table.buckets.flatten := by
    by_cases hb : s.table.buckets.getD 0 [] = []
    · rw [cursorRemaining_nil _ hb]
      show (s.table.buckets.drop 0).flatten = s.table.buckets.flatten
      rw [List.drop_zero]
    · obtain ⟨q, qs, hqqs⟩ : ∃ q qs, s.table.buckets.getD 0 [] = q :: qs := by
        rcases h : s.table.buckets.getD 0 [] with _ | ⟨q, qs⟩
        · exact absurd h hb
        · exact ⟨q, qs, rfl⟩
      rw [cursorRemaining_cons _ q qs hqqs]
      show q :: (qs ++ (s.table.buckets.drop (0 + 1)).flatten)
          = s.table.buckets.flatten
      conv_rhs => rw [← List.drop_zero s.table.buckets,
        drop_getD_cons s.table.buckets 0 (by omega)]
      rw [hqqs]
      simp
  have hinv : CursorInv (hashtable_reset_cursor s).2.table := by
    refine ⟨hlen, ?_, rfl, ?_⟩
    · rw [hrem]
      show s.table.entry_count = 0 + s.table.buckets.flatten.length
      rw [hcnt]
      omega
    · intro h
      show 0 < s.table.array_count
      exact hpos
  exact collect_next_complete s.table.buckets.flatten
    (hashtable_reset_cursor s).2 hinv hrem

/-- C4 (witness): iterating the three-record table `c4Table` emits exactly
its three stored records in bucket order. -/
theorem c4_iterator_complete_witness :
    WF (fun k => k.headD 0) c4Table ∧
    (collect_next ((⟨c4Table, ""⟩ : Sys).table.buckets.flatten.length + 1)
        (hashtable_reset_cursor ⟨c4Table, ""⟩).2).1
      = (⟨c4Table, ""⟩ : Sys).table.buckets.flatten :=
  ⟨by decide,
   (c4_iterator_complete (fun k => k.headD 0) ⟨c4Table, ""⟩ (by decide)).1⟩

theorem countP_set_add (l : List (List _keyval_pair_t))
    (q : List _keyval_pair_t → Bool) :
    ∀ (i : Nat) (x : List _keyval_pair_t), i < l.length →
      (l.set i x).countP q + (if q (l.getD i []) then 1 else 0)
        = l.countP q + (if q x then 1 else 0) := by
  induction l with
  | nil => intro i x h; exact absurd h (by simp)
  | cons a l ih =>
    intro i x h
    cases i with
    | zero =>
      simp only [List.set_cons_zero, List.getD_cons_zero, List.countP_cons]
      omega
    | succ n =>
      simp only [List.set_cons_succ, List.getD_cons_succ, List.countP_cons]
      have := ih n x (by simpa using h)
      omega

theorem slotsOf_replicate (n : Nat) : slotsOf (List.replicate n []) = 0 := by
  induction n with
  | zero => rfl
  | succ k ih =>
    rw [List.replicate_succ]
    simp only [slotsOf, List.countP_cons] at ih ⊢
    simp [ih]

theorem keyMatches_recordOf (k : List Byte) (p : List Byte × List Byte) :
    keyMatches k k.length (recordOf p) = true ↔ p.1 = k := by
  rw [keyMatches_iff]
  constructor
  · rintro ⟨h1, h2⟩
    have h1x : p.1.length = k.length := h1
    have h2x : (p.1 ++ p.2).take k.length = k.take k.length := h2
    rw [List.take_length k, ← h1x, List.take_left p.1 p.2] at h2x
    exact h2x
  · rintro rfl
    refine ⟨rfl, ?_⟩
    show (p.1 ++ p.2).take p.1.length = p.1.take p.1.length
    rw [List.take_left p.1 p.2, List.take_length p.1]

theorem keyMatches_recordOf_self (p : List Byte × List Byte) :
    keyMatches p.1 p.1.length (recordOf p) = true :=
  (keyMatches_recordOf p.1 p).mpr rfl

theorem populate_fresh (k v : List Byte) :
    populatePair { key_size := 0, value_size := 0,
                   data := List.replicate (k.length + v.length) 0 }
        k k.length (some v) v.length
      = recordOf (k, v) := by
  unfold populatePair recordOf
  dsimp only
  by_cases hv : 0 < v.length
  · rw [if_pos ⟨hv, rfl⟩]
    simp only [Option.getD_some]
    have hd1 : memcpy_at (List.replicate (k.length + v.length) 0) 0 k k.length
        = k ++ List.replicate v.length 0 := by
      rw [memcpy_key, List.take_length k, List.drop_replicate]
      have hn : k.length + v.length - k.length = v.length := by omega
      rw [hn]
    have hd2 : memcpy_at (k ++ List.replicate v.length 0) k.length v v.length
        = k ++ v := by
      unfold memcpy_at
      rw [List.take_left k (List.replicate v.length 0), List.take_length v,
          List.drop_eq_nil_of_le (by simp), List.append_nil]
    rw [hd1, hd2]
  · rw [if_neg (by rintro ⟨h, -⟩; exact hv h)]
    have hv0 : v = [] := List.length_eq_zero.mp (by omega)
    subst hv0
    rw [memcpy_key, List.take_length k, List.drop_replicate]
    have hn : k.length + List.length ([] : List Byte) - k.length = 0 := by simp
    rw [hn]
    rfl

theorem populate_exact (k v : List Byte) :
    populatePair (recordOf (k, v)) k k.length (some v) v.length
      = recordOf (k, v) := by
  unfold populatePair recordOf
  dsimp only
  by_cases hv : 0 < v.length
  · rw [if_pos ⟨hv, rfl⟩]
    simp only [Option.getD_some]
    have hd1 : memcpy_at (k ++ v) 0 k k.length = k ++ v := by
      rw [memcpy_key, List.take_length k]
      congr 1
      exact List.drop_left k v
    have hd2 : memcpy_at (k ++ v) k.length v v.length = k ++ v := by
      unfold memcpy_at
      rw [List.take_left k v, List.take_length v,
          List.drop_eq_nil_of_le (by simp), List.append_nil]
    rw [hd1, hd2]
  · rw [if_neg (by rintro ⟨h, -⟩; exact hv h)]
    have hv0 : v = [] := List.length_eq_zero.mp (by omega)
    subst hv0
    rw [memcpy_key, List.take_length k]
    have hd : (k ++ ([] : List Byte)).drop k.length = ([] : List Byte) := by simp
    rw [hd]

theorem search_none_of_disj (k : List Byte) (ks : Nat)
    (ch : List _keyval_pair_t)
    (h : ∀ r ∈ ch, keyMatches k ks r = false) :
    _search_list_by_key k ks ch = none := by
  rw [search_eq_find]
  exact List.find?_eq_none.mpr (fun x hx => by simp [h x hx])

theorem linkPair_proj (t : Table) (i : Nat) (r : _keyval_pair_t) :
    (linkPair t i r).array_count = t.array_count ∧
    (linkPair t i r).freelist = t.freelist ∧
    (linkPair t i r).total_bytes = t.total_bytes ∧
    (linkPair t i r).bytes_used = t.bytes_used ∧
    (linkPair t i r).cursor_array_index = t.cursor_array_index ∧
    (linkPair t i r).cursor_items_traversed = t.cursor_items_traversed ∧
    (linkPair t i r).cursor_item = t.cursor_item ∧
    (linkPair t i r).cursor_limit = t.cursor_limit ∧
    (linkPair t i r).buckets.length = t.buckets.length ∧
    (linkPair t i r).entry_count = t.entry_count + 1 := by
  refine ⟨?_, ?_, ?_, ?_, ?_, ?_, ?_, ?_, ?_, ?_⟩ <;>
    (unfold linkPair; dsimp only; split <;> simp [List.length_set])

theorem linkPair_slots (t : Table) (i : Nat) (r : _keyval_pair_t) :
    (linkPair t i r).array_slots_used
      = t.array_slots_used + (if (t.buckets.getD i []).isEmpty then 1 else 0) := by
  unfold linkPair
  dsimp only
  split <;> rfl

theorem linkPair_getD_self (t : Table) (i : Nat) (r : _keyval_pair_t)
    (h : i < t.buckets.length) :
    (linkPair t i r).buckets.getD i [] = t.buckets.getD i [] ++ [r] := by
  unfold linkPair
  dsimp only
  split
  · rename_i hE
    rw [getD_set_self _ _ _ h, List.isEmpty_iff.mp hE]
    simp
  · rename_i hE
    rw [getD_set_self _ _ _ h]

theorem linkPair_getD_ne (t : Table) (i j : Nat) (r : _keyval_pair_t)
    (h : i ≠ j) :
    (linkPair t i r).buckets.getD j [] = t.buckets.getD j [] := by
  unfold linkPair
  dsimp only
  split <;> exact getD_set_ne _ _ _ _ h

theorem linkPair_mem (t : Table) (i : Nat) (r : _keyval_pair_t)
    (h : i < t.buckets.length) :
    ∀ ch ∈ (linkPair t i r).buckets, ∀ x ∈ ch,
      (∃ ch0 ∈ t.buckets, x ∈ ch0) ∨ x = r := by
  unfold linkPair
  dsimp only
  split
  · intro ch hch x hx
    rcases List.mem_or_eq_of_mem_set hch with hin | hrfl
    · exact Or.inl ⟨ch, hin, hx⟩
    · subst hrfl
      exact Or.inr (List.mem_singleton.mp hx)
  · intro ch hch x hx
    rcases List.mem_or_eq_of_mem_set hch with hin | hrfl
    · exact Or.inl ⟨ch, hin, hx⟩
    · subst hrfl
      rcases List.mem_append.mp hx with hin2 | hr
      · exact Or.inl ⟨t.buckets.getD i [], getD_mem _ _ h, hin2⟩
      · exact Or.inr (List.mem_singleton.mp hr)

theorem slotsOf_linkPair (t : Table) (i : Nat) (r : _keyval_pair_t)
    (h : i < t.buckets.length) :
    slotsOf (linkPair t i r).buckets
      = slotsOf t.buckets + (if (t.buckets.getD i []).isEmpty then 1 else 0) := by
  unfold linkPair slotsOf
  dsimp only
  split
  · rename_i hE
    dsimp only
    have hgd : t.buckets.getD i [] = [] := List.isEmpty_iff.mp hE
    have hc := countP_set_add t.buckets (fun c => !c.isEmpty) i [r] h
    rw [hgd] at hc
    have h1 : ((fun (c : List _keyval_pair_t) => !c.isEmpty) ([] : List _keyval_pair_t)) = false := rfl
    have h2 : ((fun (c : List _keyval_pair_t) => !c.isEmpty) ([r] : List _keyval_pair_t)) = true := rfl
    rw [h1, h2, if_neg Bool.false_ne_true, if_pos rfl] at hc
    omega
  · rename_i hE
    dsimp only
    have hE2 : (t.buckets.getD i []).isEmpty = false := by
      simpa using hE
    have hc := countP_set_add t.buckets (fun c => !c.isEmpty) i
      (t.buckets.getD i [] ++ [r]) h
    have h1 : ((fun (c : List _keyval_pair_t) => !c.isEmpty) (t.buckets.getD i [])) = true := by
      show (!(t.buckets.getD i []).isEmpty) = true
      rw [hE2]
      rfl
    have h2 : ((fun (c : List _keyval_pair_t) => !c.isEmpty) (t.buckets.getD i [] ++ [r])) = true := by
      show (!(t.buckets.getD i [] ++ [r]).isEmpty) = true
      simp
    rw [h1, h2, if_pos rfl] at hc
    omega

theorem linkPair_bytes (t : Table) (i : Nat) (r : _keyval_pair_t) (b : Nat) :
    linkPair { t with bytes_used := b } i r
      = { linkPair t i r with bytes_used := b } := by
  unfold linkPair
  dsimp only
  split <;> rfl

theorem linkPair_freelist (t : Table) (i : Nat) (r : _keyval_pair_t)
    (fl : List _keyval_pair_t) :
    linkPair { t with freelist := fl } i r
      = { linkPair t i r with freelist := fl } := by
  unfold linkPair
  dsimp only
  split <;> rfl

theorem insCanon_proj (hash : HashFn) :
    ∀ (S : List (List Byte × List Byte)) (t : Table),
      (insCanon hash S t).array_count = t.array_count ∧
      (insCanon hash S t).freelist = t.freelist ∧
      (insCanon hash S t).total_bytes = t.total_bytes ∧
      (insCanon hash S t).bytes_used = t.bytes_used ∧
      (insCanon hash S t).cursor_array_index = t.cursor_array_index ∧
      (insCanon hash S t).cursor_items_traversed = t.cursor_items_traversed ∧
      (insCanon hash S t).cursor_item = t.cursor_item ∧
      (insCanon hash S t).cursor_limit = t.cursor_limit ∧
      (insCanon hash S t).buckets.length = t.buckets.length ∧
      (insCanon hash S t).entry_count = t.entry_count + S.length := by
  intro S
  induction S with
  | nil =>
    intro t
    exact ⟨rfl, rfl, rfl, rfl, rfl, rfl, rfl, rfl, rfl, rfl⟩
  | cons p rest ih =>
    intro t
    obtain ⟨l1, l2, l3, l4, l5, l6, l7, l8, l9, l10⟩ :=
      linkPair_proj t (hash p.1 % t.array_count) (recordOf p)
    obtain ⟨i1, i2, i3, i4, i5, i6, i7, i8, i9, i10⟩ :=
      ih (linkPair t (hash p.1 % t.array_count) (recordOf p))
    simp only [insCanon]
    refine ⟨i1.trans l1, i2.trans l2, i3.trans l3, i4.trans l4, i5.trans l5,
      i6.trans l6, i7.trans l7, i8.trans l8, i9.trans l9, ?_⟩
    rw [i10, l10]
    simp only [List.length_cons]
    omega

theorem insCanon_bytes (hash : HashFn) :
    ∀ (S : List (List Byte × List Byte)) (t : Table) (b : Nat),
      insCanon hash S { t with bytes_used := b }
        = { insCanon hash S t with bytes_used := b } := by
  intro S
  induction S with
  | nil => intro t b; rfl
  | cons p rest ih =>
    intro t b
    simp only [insCanon]
    rw [linkPair_bytes]
    exact ih _ b

theorem insCanon_freelist (hash : HashFn) :
    ∀ (S : List (List Byte × List Byte)) (t : Table)
      (fl : List _keyval_pair_t),
      insCanon hash S { t with freelist := fl }
        = { insCanon hash S t with freelist := fl } := by
  intro S
  induction S with
  | nil => intro t fl; rfl
  | cons p rest ih =>
    intro t fl
    simp only [insCanon]
    rw [linkPair_freelist]
    exact ih _ fl

theorem insCanon_getD (hash : HashFn) :
    ∀ (S : List (List Byte × List Byte)) (t : Table),
      0 < t.array_count → t.buckets.length = t.array_count →
      ∀ i, i < t.array_count →
        (insCanon hash S t).buckets.getD i []
          = t.buckets.getD i []
            ++ (S.filter (fun p => hash p.1 % t.array_count == i)).map recordOf := by
  intro S
  induction S with
  | nil =>
    intro t hpos hlen i hi
    simp [insCanon]
  | cons p rest ih =>
    intro t hpos hlen i hi
    simp only [insCanon]
    have hl1 : (linkPair t (hash p.1 % t.array_count) (recordOf p)).array_count
        = t.array_count := (linkPair_proj t _ (recordOf p)).1
    have hl9 : (linkPair t (hash p.1 % t.array_count) (recordOf p)).buckets.length
        = t.buckets.length := (linkPair_proj t _ (recordOf p)).2.2.2.2.2.2.2.2.1
    have hrec := ih (linkPair t (hash p.1 % t.array_count) (recordOf p))
      (by rw [hl1]; exact hpos) (by rw [hl9, hl1]; exact hlen) i (by rw [hl1]; exact hi)
    rw [hrec, hl1]
    by_cases hcase : hash p.1 % t.array_count = i
    · rw [hcase, linkPair_getD_self t i (recordOf p) (by omega)]
      simp [List.filter_cons, hcase, List.append_assoc]
    · rw [linkPair_getD_ne t _ i (recordOf p) hcase]
      simp [List.filter_cons, beq_iff_eq, hcase]

theorem insCanon_slots (hash : HashFn) :
    ∀ (S : List (List Byte × List Byte)) (t : Table),
      0 < t.array_count → t.buckets.length = t.array_count →
      t.array_slots_used = slotsOf t.buckets →
      (insCanon hash S t).array_slots_used
        = slotsOf (insCanon hash S t).buckets := by
  intro S
  induction S with
  | nil => intro t _ _ h; exact h
  | cons p rest ih =>
    intro t hpos hlen hslots
    have hl1 : (linkPair t (hash p.1 % t.array_count) (recordOf p)).array_count
        = t.array_count := (linkPair_proj t _ (recordOf p)).1
    have hl9 : (linkPair t (hash p.1 % t.array_count) (recordOf p)).buckets.length
        = t.buckets.length := (linkPair_proj t _ (recordOf p)).2.2.2.2.2.2.2.2.1
    have hidx : hash p.1 % t.array_count < t.buckets.length := by
      have := Nat.mod_lt (hash p.1) hpos
      omega
    simp only [insCanon]
    apply ih
    · rw [hl1]; exact hpos
    · rw [hl9, hl1]; exact hlen
    · rw [linkPair_slots, slotsOf_linkPair t _ (recordOf p) hidx, hslots]

theorem insert_fresh_step (hash : HashFn) (t : Table) (m : String)
    (p : List Byte × List Byte)
    (hk : 1 ≤ p.1.length)
    (hnone : _search_list_by_key p.1 p.1.length
        (t.buckets.getD (hash p.1 % t.array_count) []) = none)
    (hfl : t.freelist = [])
    (hroom : t.bytes_used + reqOf p ≤ t.total_bytes) :
    (hashtable_insert hash ⟨t, m⟩ (some p.1) p.1.length (some p.2) p.2.length).2
      = ⟨linkPair { t with bytes_used := t.bytes_used + reqOf p }
            (hash p.1 % t.array_count) (recordOf p), m⟩ := by
  have hroom2 : t.bytes_used + (sizeof_keyval_pair + p.1.length + p.2.length)
      ≤ t.total_bytes := hroom
  simp only [hashtable_insert]
  rw [if_neg (by omega)]
  simp only [_insert_keyval_pair, _get_table_index_by_key, List.take_length]
  simp only [hnone]
  simp only [_insert_store_and_link, _store_keyval_pair, _search_free_list]
  rw [hfl]
  simp only [_search_free_list_go]
  rw [if_neg (by omega)]
  rw [populate_fresh p.1 p.2, hfl]
  rfl

theorem insert_reuse_step (hash : HashFn) (t : Table) (m : String)
    (p : List Byte × List Byte) (restRecs : List _keyval_pair_t)
    (hk : 1 ≤ p.1.length)
    (hnone : _search_list_by_key p.1 p.1.length
        (t.buckets.getD (hash p.1 % t.array_count) []) = none)
    (hfl : t.freelist = recordOf p :: restRecs) :
    (hashtable_insert hash ⟨t, m⟩ (some p.1) p.1.length (some p.2) p.2.length).2
      = ⟨linkPair { t with freelist := restRecs }
            (hash p.1 % t.array_count) (recordOf p), m⟩ := by
  obtain ⟨k, v⟩ := p
  dsimp only at hk hnone hfl ⊢
  simp only [hashtable_insert]
  rw [if_neg (by omega)]
  simp only [_insert_keyval_pair, _get_table_index_by_key, List.take_length]
  simp only [hnone]
  simp only [_insert_store_and_link, _store_keyval_pair, _search_free_list]
  rw [hfl]
  simp only [_search_free_list_go]
  rw [if_pos (by simp [fitsRequired, recordOf])]
  dsimp only
  rw [populate_exact k v]

theorem remove_found_step (hash : HashFn) (t : Table) (m : String)
    (k : List Byte) (pair : _keyval_pair_t)
    (hk : 1 ≤ k.length)
    (hfound : _search_list_by_key k k.length
        (t.buckets.getD (hash k % t.array_count) []) = some pair) :
    (hashtable_remove hash ⟨t, m⟩ (some k) k.length).2
      = ⟨(_remove_from_table t (hash k % t.array_count) k k.length pair).2, m⟩ := by
  simp only [hashtable_remove]
  rw [if_neg (by omega)]
  simp only [_get_table_index_by_key, List.take_length]
  simp only [hfound]

theorem insertAll_fresh (hash : HashFn) :
    ∀ (S : List (List Byte × List Byte)) (t : Table) (m : String),
      0 < t.array_count →
      t.buckets.length = t.array_count →
      (∀ p ∈ S, 1 ≤ p.1.length) →
      (S.map Prod.fst).Nodup →
      (∀ ch ∈ t.buckets, ∀ r ∈ ch, ∀ q ∈ S,
        keyMatches q.1 q.1.length r = false) →
      t.freelist = [] →
      t.bytes_used + (S.map reqOf).sum ≤ t.total_bytes →
      insertAll hash S ⟨t, m⟩
        = ⟨{ insCanon hash S t with
             bytes_used := t.bytes_used + (S.map reqOf).sum }, m⟩ := by
  intro S
  induction S with
  | nil =>
    intro t m _ _ _ _ _ _ _
    rfl
  | cons p rest ih =>
    intro t m hpos hlen hkeys hnodup hdisj hfl hroom
    have hlenlt : hash p.1 % t.array_count < t.buckets.length := by
      have := Nat.mod_lt (hash p.1) hpos
      omega
    have hroom2 : t.bytes_used + (reqOf p + (rest.map reqOf).sum)
        ≤ t.total_bytes := by simpa using hroom
    have hnotmem : p.1 ∉ rest.map Prod.fst :=
      (List.nodup_cons.mp (by simpa using hnodup)).1
    have hnone : _search_list_by_key p.1 p.1.length
        (t.buckets.getD (hash p.1 % t.array_count) []) = none := by
      apply search_none_of_disj
      intro r hr
      exact hdisj _ (getD_mem _ _ hlenlt) r hr p (by simp)
    have hstep := insert_fresh_step hash t m p (hkeys p (by simp)) hnone hfl
      (by omega)
    simp only [insertAll]
    rw [hstep]
    have hT1 := linkPair_proj { t with bytes_used := t.bytes_used + reqOf p }
      (hash p.1 % t.array_count) (recordOf p)
    rw [ih (linkPair { t with bytes_used := t.bytes_used + reqOf p }
          (hash p.1 % t.array_count) (recordOf p)) m
        (by rw [hT1.1]; exact hpos)
        (by rw [hT1.2.2.2.2.2.2.2.2.1, hT1.1]; exact hlen)
        (fun q hq => hkeys q (List.mem_cons_of_mem _ hq))
        ((List.nodup_cons.mp (by simpa using hnodup)).2)
        ?hdisj
        (by rw [hT1.2.1]; exact hfl)
        ?hroom]
    case hdisj =>
      intro ch hch r hr q hq
      rcases linkPair_mem { t with bytes_used := t.bytes_used + reqOf p }
          (hash p.1 % t.array_count) (recordOf p) hlenlt ch hch r hr with
        ⟨ch0, hch0, hr0⟩ | hrrec
      · exact hdisj ch0 hch0 r hr0 q (List.mem_cons_of_mem _ hq)
      · subst hrrec
        cases hb : keyMatches q.1 q.1.length (recordOf p)
        · rfl
        · exfalso
          apply hnotmem
          rw [(keyMatches_recordOf q.1 p).mp hb]
          exact List.mem_map_of_mem Prod.fst hq
    case hroom =>
      rw [hT1.2.2.2.1, hT1.2.2.1]
      show t.bytes_used + reqOf p + (rest.map reqOf).sum ≤ t.total_bytes
      omega
    simp only [insCanon]
    rw [linkPair_bytes, insCanon_bytes]
    dsimp only
    simp only [List.map_cons, List.sum_cons]
    rw [Nat.add_assoc]

theorem insertAll_reuse (hash : HashFn) :
    ∀ (S : List (List Byte × List Byte)) (t : Table) (m : String),
      0 < t.array_count →
      t.buckets.length = t.array_count →
      (∀ p ∈ S, 1 ≤ p.1.length) →
      (S.map Prod.fst).Nodup →
      (∀ ch ∈ t.buckets, ∀ r ∈ ch, ∀ q ∈ S,
        keyMatches q.1 q.1.length r = false) →
      t.freelist = S.map recordOf →
      insertAll hash S ⟨t, m⟩
        = ⟨{ insCanon hash S t with freelist := [] }, m⟩ := by
  intro S
  induction S with
  | nil =>
    intro t m _ _ _ _ _ hfl
    have hfl2 : t.freelist = [] := by simpa using hfl
    simp only [insertAll, insCanon]
    rw [show ({ t with freelist := [] } : Table)
        = { t with freelist := t.freelist } from by rw [hfl2]]
  | cons p rest ih =>
    intro t m hpos hlen hkeys hnodup hdisj hfl
    have hlenlt : hash p.1 % t.array_count < t.buckets.length := by
      have := Nat.mod_lt (hash p.1) hpos
      omega
    have hnotmem : p.1 ∉ rest.map Prod.fst :=
      (List.nodup_cons.mp (by simpa using hnodup)).1
    have hnone : _search_list_by_key p.1 p.1.length
        (t.buckets.getD (hash p.1 % t.array_count) []) = none := by
      apply search_none_of_disj
      intro r hr
      exact hdisj _ (getD_mem _ _ hlenlt) r hr p (by simp)
    have hstep := insert_reuse_step hash t m p (rest.map recordOf)
      (hkeys p (by simp)) hnone (by simpa using hfl)
    simp only [insertAll]
    rw [hstep]
    have hT1 := linkPair_proj { t with freelist := rest.map recordOf }
      (hash p.1 % t.array_count) (recordOf p)
    rw [ih (linkPair { t with freelist := rest.map recordOf }
          (hash p.1 % t.array_count) (recordOf p)) m
        (by rw [hT1.1]; exact hpos)
        (by rw [hT1.2.2.2.2.2.2.2.2.1, hT1.1]; exact hlen)
        (fun q hq => hkeys q (List.mem_cons_of_mem _ hq))
        ((List.nodup_cons.mp (by simpa using hnodup)).2)
        ?hdisj
        (by rw [hT1.2.1])]
    case hdisj =>
      intro ch hch r hr q hq
      rcases linkPair_mem { t with freelist := rest.map recordOf }
          (hash p.1 % t.array_count) (recordOf p) hlenlt ch hch r hr with
        ⟨ch0, hch0, hr0⟩ | hrrec
      · exact hdisj ch0 hch0 r hr0 q (List.mem_cons_of_mem _ hq)
      · subst hrrec
        cases hb : keyMatches q.1 q.1.length (recordOf p)
        · rfl
        · exfalso
          apply hnotmem
          rw [(keyMatches_recordOf q.1 p).mp hb]
          exact List.mem_map_of_mem Prod.fst hq
    simp only [insCanon]
    rw [linkPair_freelist, insCanon_freelist]

theorem slotsOf_set_empty (l : List (List _keyval_pair_t)) (i : Nat)
    (x : List _keyval_pair_t) (h : i < l.length)
    (hold : (l.getD i []).isEmpty = false) (hx : x.isEmpty = true) :
    slotsOf (l.set i x) + 1 = slotsOf l := by
  unfold slotsOf
  have hc := countP_set_add l (fun c => !c.isEmpty) i x h
  have e1 : ((fun (c : List _keyval_pair_t) => !c.isEmpty) (l.getD i [])) = true := by
    show (!(l.getD i []).isEmpty) = true
    rw [hold]
    rfl
  have e2 : ((fun (c : List _keyval_pair_t) => !c.isEmpty) x) = false := by
    show (!x.isEmpty) = false
    rw [hx]
    rfl
  rw [e1, e2, if_pos rfl, if_neg Bool.false_ne_true] at hc
  omega

theorem slotsOf_set_keep (l : List (List _keyval_pair_t)) (i : Nat)
    (x : List _keyval_pair_t) (h : i < l.length)
    (hold : (l.getD i []).isEmpty = false) (hx : x.isEmpty = false) :
    slotsOf (l.set i x) = slotsOf l := by
  unfold slotsOf
  have hc := countP_set_add l (fun c => !c.isEmpty) i x h
  have e1 : ((fun (c : List _keyval_pair_t) => !c.isEmpty) (l.getD i [])) = true := by
    show (!(l.getD i []).isEmpty) = true
    rw [hold]
    rfl
  have e2 : ((fun (c : List _keyval_pair_t) => !c.isEmpty) x) = true := by
    show (!x.isEmpty) = true
    rw [hx]
    rfl
  rw [e1, e2, if_pos rfl] at hc
  omega

theorem removeAll_records (hash : HashFn) :
    ∀ (P : List (List Byte × List Byte)) (t : Table) (m : String),
      0 < t.array_count →
      t.buckets.length = t.array_count →
      (∀ p ∈ P, 1 ≤ p.1.length) →
      t.entry_count = P.length →
      t.array_slots_used = slotsOf t.buckets →
      (∀ i, i < t.array_count →
        t.buckets.getD i []
          = (P.filter (fun p => hash p.1 % t.array_count == i)).map recordOf) →
      removeAll hash (P.map Prod.fst) ⟨t, m⟩
        = ⟨{ t with buckets := List.replicate t.array_count [], entry_count := 0, array_slots_used := 0, freelist := t.freelist ++ P.map recordOf }, m⟩ := by
  intro P
  induction P with
  | nil =>
    intro t m hpos hlen hkeys hent hslots hrep
    have hb : t.buckets = List.replicate t.array_count [] := by
      apply List.eq_replicate_iff.mpr
      refine ⟨hlen, ?_⟩
      intro ch hch
      obtain ⟨i, hi, hchi⟩ := List.getElem_of_mem hch
      have hx := hrep i (by omega)
      rw [getD_eq_get t.buckets i hi, hchi] at hx
      simpa using hx
    have hs0 : t.array_slots_used = 0 := by
      rw [hslots, hb]
      exact slotsOf_replicate t.array_count
    simp only [List.length_nil] at hent
    simp only [List.map_nil, removeAll]
    rcases t with ⟨ac, ec, asu, bs, fl, tb, bu, ci, ct, cit, cl⟩
    dsimp only at hb hent hs0 ⊢
    subst hb hent hs0
    simp
  | cons p rest ih =>
    intro t m hpos hlen hkeys hent hslots hrep
    have hidxlt : hash p.1 % t.array_count < t.buckets.length := by
      have := Nat.mod_lt (hash p.1) hpos
      omega
    have hchain : t.buckets.getD (hash p.1 % t.array_count) []
        = recordOf p :: (rest.filter (fun x => hash x.1 % t.array_count
            == hash p.1 % t.array_count)).map recordOf := by
      rw [hrep (hash p.1 % t.array_count) (by omega)]
      simp [List.filter_cons]
    have hfound : _search_list_by_key p.1 p.1.length
        (t.buckets.getD (hash p.1 % t.array_count) []) = some (recordOf p) := by
      rw [hchain]
      simp only [_search_list_by_key]
      rw [if_pos (keyMatches_recordOf_self p)]
    have hlist : removeFirstMatch p.1 p.1.length
        (t.buckets.getD (hash p.1 % t.array_count) [])
        = (rest.filter (fun x => hash x.1 % t.array_count
            == hash p.1 % t.array_count)).map recordOf := by
      rw [hchain]
      simp only [removeFirstMatch]
      rw [if_pos (keyMatches_recordOf_self p)]
    have hold : (t.buckets.getD (hash p.1 % t.array_count) []).isEmpty = false := by
      rw [hchain]
      rfl
    simp only [List.map_cons, removeAll]
    rw [remove_found_step hash t m p.1 (recordOf p) (hkeys p (by simp)) hfound]
    simp only [_remove_from_table]
    rw [hlist]
    by_cases hE : ((rest.filter (fun x => hash x.1 % t.array_count
        == hash p.1 % t.array_count)).map recordOf).isEmpty
    · rw [if_pos hE]
      dsimp only
      rw [ih _ m ?q1 ?q2 ?q3 ?q4 ?q5 ?q6]
      case q1 => exact hpos
      case q2 => simpa using hlen
      case q3 => exact fun q hq => hkeys q (List.mem_cons_of_mem _ hq)
      case q4 =>
        show t.entry_count - 1 = rest.length
        rw [hent]
        simp only [List.length_cons]
        omega
      case q5 =>
        show t.array_slots_used - 1
            = slotsOf (t.buckets.set (hash p.1 % t.array_count)
                ((rest.filter (fun x => hash x.1 % t.array_count
                    == hash p.1 % t.array_count)).map recordOf))
        have hs := slotsOf_set_empty t.buckets (hash p.1 % t.array_count) _
          hidxlt hold hE
        rw [hslots]
        omega
      case q6 =>
        intro i hi
        show (t.buckets.set (hash p.1 % t.array_count)
              ((rest.filter (fun x => hash x.1 % t.array_count
                  == hash p.1 % t.array_count)).map recordOf)).getD i []
            = (rest.filter (fun x => hash x.1 % t.array_count == i)).map recordOf
        have hi2 : i < t.array_count := hi
        by_cases hcase : hash p.1 % t.array_count = i
        · rw [← hcase, getD_set_self _ _ _ hidxlt]
        · rw [getD_set_ne _ _ _ _ hcase, hrep i hi2]
          have hf : ((fun x => hash x.1 % t.array_count == i) p) = false := by
            show (hash p.1 % t.array_count == i) = false
            exact beq_eq_false_iff_ne.mpr hcase
          simp [List.filter_cons, hf]
      dsimp only
      simp [List.append_assoc]
    · rw [if_neg hE]
      have hE2 : ((rest.filter (fun x => hash x.1 % t.array_count
          == hash p.1 % t.array_count)).map recordOf).isEmpty = false := by
        simpa using hE
      dsimp only
      rw [ih _ m ?r1 ?r2 ?r3 ?r4 ?r5 ?r6]
      case r1 => exact hpos
      case r2 => simpa using hlen
      case r3 => exact fun q hq => hkeys q (List.mem_cons_of_mem _ hq)
      case r4 =>
        show t.entry_count - 1 = rest.length
        rw [hent]
        simp only [List.length_cons]
        omega
      case r5 =>
        show t.array_slots_used
            = slotsOf (t.buckets.set (hash p.1 % t.array_count)
                ((rest.filter (fun x => hash x.1 % t.array_count
                    == hash p.1 % t.array_count)).map recordOf))
        rw [hslots]
        exact (slotsOf_set_keep t.buckets (hash p.1 % t.array_count) _
          hidxlt hold hE2).symm
      case r6 =>
        intro i hi
        show (t.buckets.set (hash p.1 % t.array_count)
              ((rest.filter (fun x => hash x.1 % t.array_count
                  == hash p.1 % t.array_count)).map recordOf)).getD i []
            = (rest.filter (fun x => hash x.1 % t.array_count == i)).map recordOf
        have hi2 : i < t.array_count := hi
        by_cases hcase : hash p.1 % t.array_count = i
        · rw [← hcase, getD_set_self _ _ _ hidxlt]
        · rw [getD_set_ne _ _ _ _ hcase, hrep i hi2]
          have hf : ((fun x => hash x.1 % t.array_count == i) p) = false := by
            show (hash p.1 % t.array_count == i) = false
            exact beq_eq_false_iff_ne.mpr hcase
          simp [List.filter_cons, hf]
      dsimp only
      simp [List.append_assoc]

/-- C6 (counterexample): the spec's remove-then-reinsert neutrality fails
when the removals happen in an order other than insertion order.  Inserting
`c6S` (key `[65]` with empty value, then key `[66]` with a 12-byte value)
into a fresh 99-byte table leaves 37 bytes remaining; removing the keys in
reverse order and reinserting `c6S` in insertion order makes the first
reinsert grab the larger freed record first-fit, forcing the second one to
bump-allocate: all inserts succeed (`entry_count = 2`) but 0 bytes remain. -/
theorem c6_neutrality_counterexample :
    (hashtable_bytes_remaining (insertAll _fnv1a_hash c6S c6Start)).2.1
      = some 37 ∧
    (hashtable_bytes_remaining
        (insertAll _fnv1a_hash c6S
          (removeAll _fnv1a_hash [[66], [65]]
            (insertAll _fnv1a_hash c6S c6Start)))).2.1
      = some 0 ∧
    (insertAll _fnv1a_hash c6S
        (removeAll _fnv1a_hash [[66], [65]]
          (insertAll _fnv1a_hash c6S c6Start))).table.entry_count = 2 := by
  decide

/-- C6 (amended): for any list `S` of pairs with nonempty pairwise-distinct
keys whose records all fit the arena of a fresh table, inserting `S`,
removing all of `S`'s keys **in insertion order**, and reinserting `S` in
insertion order restores the exact post-insertion state — each reinsert
takes its own freed exact-fit record off the free-list head — so in
particular `bytes_remaining` is restored. -/
theorem c6_neutrality_amended (hash : HashFn)
    (S : List (List Byte × List Byte)) (N B : Nat) (m : String)
    (hN : 0 < N)
    (hkeys : ∀ p ∈ S, 1 ≤ p.1.length)
    (hnodup : (S.map Prod.fst).Nodup)
    (hfits : (S.map reqOf).sum ≤ B) :
    insertAll hash S
        (removeAll hash (S.map Prod.fst) (insertAll hash S ⟨freshTable N B, m⟩))
      = insertAll hash S ⟨freshTable N B, m⟩ ∧
    (hashtable_bytes_remaining
        (insertAll hash S
          (removeAll hash (S.map Prod.fst)
            (insertAll hash S ⟨freshTable N B, m⟩)))).2.1
      = (hashtable_bytes_remaining
          (insertAll hash S ⟨freshTable N B, m⟩)).2.1 := by
  have ht0pos : 0 < (freshTable N B).array_count := hN
  have ht0len : (freshTable N B).buckets.length
      = (freshTable N B).array_count := by
    simp [freshTable]
  have ht0disj : ∀ ch ∈ (freshTable N B).buckets, ∀ r ∈ ch, ∀ q ∈ S,
      keyMatches q.1 q.1.length r = false := by
    intro ch hch r hr q hq
    have hche : ch = [] := List.eq_of_mem_replicate hch
    rw [hche] at hr
    exact absurd hr (List.not_mem_nil r)
  have ht0slots : (freshTable N B).array_slots_used
      = slotsOf (freshTable N B).buckets := by
    show (0 : Nat) = slotsOf (List.replicate N ([] : List _keyval_pair_t))
    exact (slotsOf_replicate N).symm
  have hgdrep : ∀ i, i < N →
      (freshTable N B).buckets.getD i [] = ([] : List _keyval_pair_t) := by
    intro i hi
    show (List.replicate N ([] : List _keyval_pair_t)).getD i [] = []
    rw [getD_eq_get _ i (by simpa using hi)]
    simp
  have hrepC : ∀ i, i < N →
      (insCanon hash S (freshTable N B)).buckets.getD i []
        = (S.filter (fun p => hash p.1 % N == i)).map recordOf := by
    intro i hi
    rw [insCanon_getD hash S (freshTable N B) ht0pos ht0len i hi,
      show (freshTable N B).array_count = N from rfl, hgdrep i hi]
    simp
  have hslotsC := insCanon_slots hash S (freshTable N B) ht0pos ht0len ht0slots
  obtain ⟨c1, c2, c3, c4, c5, c6, c7, c8, c9, c10⟩ :=
    insCanon_proj hash S (freshTable N B)
  have hmain : insertAll hash S
      (removeAll hash (S.map Prod.fst) (insertAll hash S ⟨freshTable N B, m⟩))
      = insertAll hash S ⟨freshTable N B, m⟩ := by
    rw [insertAll_fresh hash S (freshTable N B) m ht0pos ht0len hkeys hnodup
      ht0disj rfl (by show 0 + (S.map reqOf).sum ≤ B; omega)]
    generalize hg : insCanon hash S (freshTable N B) = C
    rw [hg] at hrepC hslotsC c1 c2 c3 c4 c5 c6 c7 c8 c9 c10
    rw [removeAll_records hash S
        { C with bytes_used := (freshTable N B).bytes_used + (S.map reqOf).sum }
        m ?b1 ?b2 hkeys ?b4 ?b5 ?b6]
    case b1 =>
      show 0 < C.array_count
      rw [c1]
      exact hN
    case b2 =>
      show C.buckets.length = C.array_count
      rw [c9, c1]
      exact ht0len
    case b4 =>
      show C.entry_count = S.length
      rw [c10]
      show 0 + S.length = S.length
      omega
    case b5 =>
      show C.array_slots_used = slotsOf C.buckets
      exact hslotsC
    case b6 =>
      intro i hi
      have hiN : i < N := by
        have hx : i < C.array_count := hi
        rw [c1] at hx
        exact hx
      show C.buckets.getD i []
          = (S.filter (fun p => hash p.1 % C.array_count == i)).map recordOf
      rw [c1, show (freshTable N B).array_count = N from rfl]
      exact hrepC i hiN
    have hstate : (⟨{ ({ C with bytes_used := (freshTable N B).bytes_used + (S.map reqOf).sum } : Table) with buckets := List.replicate ({ C with bytes_used := (freshTable N B).bytes_used + (S.map reqOf).sum } : Table).array_count [], entry_count := 0, array_slots_used := 0, freelist := ({ C with bytes_used := (freshTable N B).bytes_used + (S.map reqOf).sum } : Table).freelist ++ S.map recordOf }, m⟩ : Sys)
        = ⟨{ ({ freshTable N B with bytes_used := (freshTable N B).bytes_used + (S.map reqOf).sum } : Table) with freelist := S.map recordOf }, m⟩ := by
      simp [Sys.mk.injEq, Table.mk.injEq, c1, c2, c3, c5, c6, c7, c8, freshTable]
    rw [hstate]
    rw [insertAll_reuse hash S
        { ({ freshTable N B with bytes_used := (freshTable N B).bytes_used + (S.map reqOf).sum } : Table) with freelist := S.map recordOf }
        m ?a1 ?a2 hkeys hnodup ?a5 rfl]
    case a1 => exact hN
    case a2 =>
      show (List.replicate N ([] : List _keyval_pair_t)).length = N
      simp
    case a5 => exact ht0disj
    rw [insCanon_freelist, insCanon_bytes, hg]
    simp [Sys.mk.injEq, Table.mk.injEq, c2, freshTable]
  exact ⟨hmain, by rw [hmain]⟩

/-- C6 (witness): the amended theorem at two concrete pairs in a one-bucket
table whose arena exactly fits both records. -/
theorem c6_neutrality_amended_witness :
    insertAll _fnv1a_hash [([65], [1]), ([66], [2])]
        (removeAll _fnv1a_hash ([([65], [1]), ([66], [2])].map Prod.fst)
          (insertAll _fnv1a_hash [([65], [1]), ([66], [2])]
            ⟨freshTable 1 52, ""⟩))
      = insertAll _fnv1a_hash [([65], [1]), ([66], [2])] ⟨freshTable 1 52, ""⟩ :=
  (c6_neutrality_amended _fnv1a_hash [([65], [1]), ([66], [2])] 1 52 ""
    (by decide) (by decide) (by decide) (by decide)).1

end Hashtable
